import Mathlib

/-!
Verification of the ors kernel core (yubrot/ors) against its natural-language
specification.  Each Rust data structure and operation that the checked claims
depend on is shallowly embedded as an executable Lean definition translated
from the source, and the claims are settled as theorems about those
definitions.

Modules covered:
* `Ors.PhysMemory`  — `src/ors-kernel/src/phys_memory.rs` (bitmap frame allocator)
* `Ors.Interrupts`  — `src/ors-kernel/src/interrupts.rs` (timer handler, `Cli` scope)
* `Ors.Task`        — `src/ors-kernel/src/task.rs` (`TaskQueue::dequeue`)
* `Ors.Virtio`      — `src/ors-kernel/src/devices/virtio/queue.rs` and `block.rs`

Machine integers are modelled as `Nat`; wrap-around is written explicitly
(`% 2 ^ 64`) at the spots where the Rust release build would wrap.
-/

set_option maxHeartbeats 1000000

namespace Ors

namespace PhysMemory

/-- Frame::SIZE = 4096 (4 KiB). -/
def frameSize : Nat := 4096

/-- MAX_PHYSICAL_MEMORY_BYTES = 128 GiB. -/
def maxPhysicalMemoryBytes : Nat := 128 * 1024 * 1024 * 1024

/-- FRAME_COUNT = MAX_PHYSICAL_MEMORY_BYTES / Frame::SIZE. -/
def frameCount : Nat := maxPhysicalMemoryBytes / frameSize

/-- BITS_PER_MAP_LINE = 8 * size_of::<usize>() = 64. -/
def bitsPerMapLine : Nat := 64

/-- Frame::MIN = Frame(1).  (The source keeps index 0 reserved; see the
`TODO: Why 1 instead of 0?` comment in `phys_memory.rs`.) -/
def frameMin : Nat := 1

/-- Shallow embedding of `BitmapFrameManager`.  A `Frame` is represented by its
index (a `Nat`).  `alloc_map` maps a line index to the 64-bit line value; only
bit positions `0..63` of each line are ever read, mirroring the
`[MapLine; MAP_LINE_COUNT]` array (line values stay below `2 ^ 64` under the
operations below).  The Rust field `end` is a reserved word in Lean and is
rendered `endF`. -/
structure BitmapFrameManager where
  alloc_map : Nat → Nat
  begin_ : Nat
  endF : Nat

/-- `BitmapFrameManager::new()`: zeroed bitmap, `begin = Frame::MIN`,
`end = Frame::MAX = Frame(FRAME_COUNT)`. -/
def newManager : BitmapFrameManager :=
  { alloc_map := fun _ => 0, begin_ := frameMin, endF := frameCount }

/-- `BitmapFrameManager::get_bit`: `(alloc_map[frame/64] & (1 << frame%64)) != 0`. -/
def getBit (m : BitmapFrameManager) (frame : Nat) : Bool :=
  let line_index := frame / bitsPerMapLine
  let bit_index := frame % bitsPerMapLine
  m.alloc_map line_index &&& (1 <<< bit_index) != 0

/-- `BitmapFrameManager::set_bit`.  The clearing branch `&= !(1 << bit)` is the
64-bit complement, written `(2 ^ 64 - 1) ^^^ (1 <<< bit)` on `Nat`. -/
def setBit (m : BitmapFrameManager) (frame : Nat) (allocated : Bool) :
    BitmapFrameManager :=
  let line_index := frame / bitsPerMapLine
  let bit_index := frame % bitsPerMapLine
  if allocated then
    let line := m.alloc_map line_index ||| (1 <<< bit_index)
    { m with alloc_map := Function.update m.alloc_map line_index line }
  else
    let line := m.alloc_map line_index &&& ((2 ^ 64 - 1) ^^^ (1 <<< bit_index))
    { m with alloc_map := Function.update m.alloc_map line_index line }

/-- `BitmapFrameManager::mark_allocated`: sets `num_frames` bits starting at
`frame`.  (The `init` parameter only selects trace logging and is dropped.) -/
def markAllocated (m : BitmapFrameManager) (frame num_frames : Nat) :
    BitmapFrameManager :=
  (List.range num_frames).foldl (fun m i => setBit m (frame + i) true) m

/-- `BitmapFrameManager::mark_allocated_in_bytes(start, bytes)` =
`mark_allocated(start, bytes / Frame::SIZE)`. -/
def markAllocatedInBytes (m : BitmapFrameManager) (start bytes : Nat) :
    BitmapFrameManager :=
  markAllocated m start (bytes / frameSize)

/-- Result of one pass of the inner `for i in 0..num_frames` loop of
`BitmapFrameManager::allocate`: all bits clear (`fits`), ran past `self.end`
(`oob`, the whole allocation fails), or found a set bit at offset `i`
(`collide i`, the cursor restarts at `frame + i + 1`). -/
inductive ScanResult where
  | fits
  | oob
  | collide (i : Nat)
deriving DecidableEq, Repr

/-- Inner loop of `allocate`: checks offsets `i, i+1, …` while `rem` offsets
remain; the bound check `frame.offset(i) >= self.end` precedes the bit test,
exactly as in the source. -/
def scanRun (m : BitmapFrameManager) (frame : Nat) : Nat → Nat → ScanResult
  | _, 0 => .fits
  | i, rem + 1 =>
    if m.endF ≤ frame + i then .oob
    else if getBit m (frame + i) then .collide i
    else scanRun m frame (i + 1) rem

/-- `AllocateError` from `phys_memory.rs`. -/
inductive AllocateError where
  | NotEnoughFrame
deriving DecidableEq, Repr

theorem scanRun_collide_lt {m : BitmapFrameManager} {frame : Nat} :
    ∀ {i rem j : Nat}, scanRun m frame i rem = .collide j → frame + j < m.endF := by
  intro i rem
  induction rem generalizing i with
  | zero => intro j h; simp [scanRun] at h
  | succ rem ih =>
    intro j h
    rw [scanRun] at h
    by_cases hend : m.endF ≤ frame + i
    · simp [hend] at h
    · simp only [if_neg hend] at h
      by_cases hbit : getBit m (frame + i)
      · simp [hbit] at h
        omega
      · simp [hbit] at h
        exact ih h

/-- The `'search: loop` of `BitmapFrameManager::allocate`, defined by
well-founded recursion on the distance from the cursor to the range end: on a
collision at offset `i` the cursor advances to `frame + i + 1`. -/
def allocateGo (m : BitmapFrameManager) (num_frames frame : Nat) :
    Except AllocateError Nat :=
  match h : scanRun m frame 0 num_frames with
  | .fits => .ok frame
  | .oob => .error .NotEnoughFrame
  | .collide i => allocateGo m num_frames (frame + i + 1)
termination_by m.endF - frame
decreasing_by
  have := scanRun_collide_lt h
  omega

/-- `BitmapFrameManager::allocate`: first-fit scan starting at `self.begin`;
on success the found bits are set via `mark_allocated`.  The mutated manager is
returned alongside the frame. -/
def allocate (m : BitmapFrameManager) (num_frames : Nat) :
    Except AllocateError (Nat × BitmapFrameManager) :=
  match allocateGo m num_frames m.begin_ with
  | .ok frame => .ok (frame, markAllocated m frame num_frames)
  | .error e => .error e

/-- Descriptor of `ors-common::memory_map`: a `[phys_start, phys_end)` byte
range of usable RAM. -/
structure Descriptor where
  phys_start : Nat
  phys_end : Nat
deriving DecidableEq, Repr

/-- One iteration of the descriptor loop in `BitmapFrameManager::initialize`:
if the running `phys_available_end` is below the descriptor's `phys_start`,
the uncovered byte gap is pre-marked allocated. -/
def initializeStep (s : BitmapFrameManager × Nat) (d : Descriptor) :
    BitmapFrameManager × Nat :=
  let m := s.1
  let phys_available_end := s.2
  let m :=
    if phys_available_end < d.phys_start then
      markAllocatedInBytes m (phys_available_end / frameSize)
        (d.phys_start - phys_available_end)
    else m
  (m, d.phys_end)

/-- `BitmapFrameManager::initialize(memory_map)`: folds the descriptor list
with `phys_available_end` starting at 0, then
`set_memory_range(Frame::MIN, Frame::from_phys_addr(phys_available_end))`. -/
def initializeM (m : BitmapFrameManager) (descs : List Descriptor) :
    BitmapFrameManager :=
  let s := descs.foldl initializeStep (m, 0)
  { s.1 with begin_ := frameMin, endF := s.2 / frameSize }

/-- Index computation of `availability_in_range`:
`begin + ((end - begin) as f64 * x) as usize`.  The `f64` product is modelled
exactly over `ℚ` with truncation (`Int.toNat ∘ Int.floor`; the arguments are
non-negative). -/
def subrangeIndex (m : BitmapFrameManager) (x : ℚ) : Nat :=
  m.begin_ + (⌊((m.endF - m.begin_ : Nat) : ℚ) * x⌋).toNat

/-- `BitmapFrameManager::availability_in_range(a, b)`.  The leading
`assert!(0.0 <= a && a < b && b <= 1.0)` is modelled by returning `none` when
it fails.  The body counts the frames `i ∈ [a', b')` with `get_bit(i)` set and
divides by the width (over `ℚ`; the division of the source is in `f64`). -/
def availability_in_range (m : BitmapFrameManager) (a b : ℚ) : Option ℚ :=
  if 0 ≤ a ∧ a < b ∧ b ≤ 1 then
    let a' := subrangeIndex m a
    let b' := subrangeIndex m b
    let n := (List.range' a' (b' - a')).countP (fun i => getBit m i)
    some ((n : ℚ) / ((b' - a' : Nat) : ℚ))
  else
    none

/-- Modelled from the spec sentence of C4 (for comparison only): the fraction
of clear (unallocated) bits among the frames in the sub-range `[a, b)` of the
managed space. -/
def specClearFraction (m : BitmapFrameManager) (a b : ℚ) : ℚ :=
  let a' := subrangeIndex m a
  let b' := subrangeIndex m b
  ((((Finset.Ico a' b').filter (fun i => getBit m i = false)).card : ℚ)) /
    ((b' - a' : Nat) : ℚ)

/-- The amended reading of C4, also written from the spec's vocabulary: the
fraction of set (allocated) bits among the frames in the sub-range. -/
def specSetFraction (m : BitmapFrameManager) (a b : ℚ) : ℚ :=
  let a' := subrangeIndex m a
  let b' := subrangeIndex m b
  ((((Finset.Ico a' b').filter (fun i => getBit m i = true)).card : ℚ)) /
    ((b' - a' : Nat) : ℚ)

/-! Basic lemmas about the bitmap operations. -/

theorem getBit_eq_testBit (m : BitmapFrameManager) (f : Nat) :
    getBit m f = (m.alloc_map (f / bitsPerMapLine)).testBit (f % bitsPerMapLine) := by
  simp only [getBit]
  rw [Nat.one_shiftLeft, Nat.and_two_pow]
  cases h : (m.alloc_map (f / bitsPerMapLine)).testBit (f % bitsPerMapLine) <;> simp [h]

theorem alloc_map_setBit_true (m : BitmapFrameManager) (f : Nat) :
    (setBit m f true).alloc_map = Function.update m.alloc_map (f / bitsPerMapLine)
      (m.alloc_map (f / bitsPerMapLine) ||| 2 ^ (f % bitsPerMapLine)) := by
  simp [setBit, Nat.one_shiftLeft]

theorem alloc_map_setBit_false (m : BitmapFrameManager) (f : Nat) :
    (setBit m f false).alloc_map = Function.update m.alloc_map (f / bitsPerMapLine)
      (m.alloc_map (f / bitsPerMapLine) &&& ((2 ^ 64 - 1) ^^^ 2 ^ (f % bitsPerMapLine))) := by
  simp [setBit, Nat.one_shiftLeft]

@[simp] theorem setBit_begin (m : BitmapFrameManager) (f : Nat) (b : Bool) :
    (setBit m f b).begin_ = m.begin_ := by
  cases b <;> rfl

@[simp] theorem setBit_endF (m : BitmapFrameManager) (f : Nat) (b : Bool) :
    (setBit m f b).endF = m.endF := by
  cases b <;> rfl

theorem getBit_setBit (m : BitmapFrameManager) (f : Nat) (b : Bool) (g : Nat) :
    getBit (setBit m f b) g = if g = f then b else getBit m g := by
  have h64 : bitsPerMapLine = 64 := rfl
  have hfmod : f % 64 < 64 := by omega
  have hgmod : g % 64 < 64 := by omega
  by_cases hline : g / 64 = f / 64
  · by_cases hbit : g % 64 = f % 64
    · have hgf : g = f := by omega
      subst hgf
      rw [if_pos rfl]
      cases b
      · rw [getBit_eq_testBit, alloc_map_setBit_false, h64, Function.update_same,
          Nat.testBit_and, Nat.testBit_xor, Nat.testBit_two_pow_sub_one, Nat.testBit_two_pow]
        simp [hgmod]
      · rw [getBit_eq_testBit, alloc_map_setBit_true, h64, Function.update_same,
          Nat.testBit_or, Nat.testBit_two_pow]
        simp
    · have hgf : g ≠ f := by omega
      have hne : ¬ (f % 64 = g % 64) := fun h => hbit h.symm
      rw [if_neg hgf]
      cases b
      · rw [getBit_eq_testBit, getBit_eq_testBit, alloc_map_setBit_false, h64, hline,
          Function.update_same, Nat.testBit_and, Nat.testBit_xor,
          Nat.testBit_two_pow_sub_one, Nat.testBit_two_pow]
        simp [hgmod, hne]
      · rw [getBit_eq_testBit, getBit_eq_testBit, alloc_map_setBit_true, h64, hline,
          Function.update_same, Nat.testBit_or, Nat.testBit_two_pow]
        simp [hne]
  · have hgf : g ≠ f := by omega
    rw [if_neg hgf]
    have hlineq : g / bitsPerMapLine ≠ f / bitsPerMapLine := by rw [h64]; exact hline
    cases b
    · rw [getBit_eq_testBit, getBit_eq_testBit, alloc_map_setBit_false,
        Function.update_noteq hlineq]
    · rw [getBit_eq_testBit, getBit_eq_testBit, alloc_map_setBit_true,
        Function.update_noteq hlineq]

@[simp] theorem markAllocated_begin (m : BitmapFrameManager) (frame n : Nat) :
    (markAllocated m frame n).begin_ = m.begin_ := by
  induction n with
  | zero => rfl
  | succ n ih =>
    rw [markAllocated, List.range_succ, List.foldl_append]
    simpa [markAllocated] using ih

@[simp] theorem markAllocated_endF (m : BitmapFrameManager) (frame n : Nat) :
    (markAllocated m frame n).endF = m.endF := by
  induction n with
  | zero => rfl
  | succ n ih =>
    rw [markAllocated, List.range_succ, List.foldl_append]
    simpa [markAllocated] using ih

theorem getBit_markAllocated (m : BitmapFrameManager) (frame n g : Nat) :
    getBit (markAllocated m frame n) g =
      if frame ≤ g ∧ g < frame + n then true else getBit m g := by
  induction n with
  | zero =>
    rw [markAllocated]
    simp only [List.range_zero, List.foldl_nil]
    have : ¬ (frame ≤ g ∧ g < frame + 0) := by omega
    rw [if_neg this]
  | succ n ih =>
    rw [markAllocated, List.range_succ, List.foldl_append]
    simp only [List.foldl_cons, List.foldl_nil]
    rw [show ((List.range n).foldl (fun m i => setBit m (frame + i) true) m)
        = markAllocated m frame n from rfl]
    rw [getBit_setBit, ih]
    by_cases h1 : g = frame + n
    · simp [h1]
    · rw [if_neg h1]
      by_cases h2 : frame ≤ g ∧ g < frame + n
      · rw [if_pos h2, if_pos (by omega)]
      · rw [if_neg h2, if_neg (by omega)]

/-! Claims C5, C6, C10: initialization and allocation. -/

/-- Byte offset `x` is covered by one of the memory-map descriptors. -/
def covered (descs : List Descriptor) (x : Nat) : Prop :=
  ∃ d ∈ descs, d.phys_start ≤ x ∧ x < d.phys_end

instance (descs : List Descriptor) (x : Nat) : Decidable (covered descs x) := by
  unfold covered; infer_instance

/-- A descriptor whose byte bounds are multiples of the 4 KiB frame size. -/
def pageAligned (d : Descriptor) : Prop :=
  d.phys_start % frameSize = 0 ∧ d.phys_end % frameSize = 0

instance (d : Descriptor) : Decidable (pageAligned d) := by
  unfold pageAligned; infer_instance

theorem initFold_marks_gaps :
    ∀ (descs : List Descriptor) (m : BitmapFrameManager) (pae : Nat) (C : Nat → Prop),
      pae % frameSize = 0 →
      (∀ d ∈ descs, pageAligned d) →
      (∀ x, x < pae → ¬ C x → getBit m (x / frameSize) = true) →
      (descs.foldl initializeStep (m, pae)).2 % frameSize = 0 ∧
      ∀ x, x < (descs.foldl initializeStep (m, pae)).2 →
        ¬ (C x ∨ covered descs x) →
        getBit (descs.foldl initializeStep (m, pae)).1 (x / frameSize) = true := by
  intro descs
  induction descs with
  | nil =>
    intro m pae C hal _ hm
    refine ⟨hal, ?_⟩
    intro x hx hnc
    exact hm x hx (fun hc => hnc (Or.inl hc))
  | cons d rest ih =>
    intro m pae C hal hdescs hm
    have hd : pageAligned d := hdescs d (List.mem_cons_self d rest)
    have hrest : ∀ d' ∈ rest, pageAligned d' := fun d' h => hdescs d' (List.mem_cons_of_mem d h)
    rw [List.foldl_cons]
    have hstep : initializeStep (m, pae) d =
        (if pae < d.phys_start then
          markAllocatedInBytes m (pae / frameSize) (d.phys_start - pae) else m,
         d.phys_end) := rfl
    rw [hstep]
    have key := ih (if pae < d.phys_start then
        markAllocatedInBytes m (pae / frameSize) (d.phys_start - pae) else m)
      d.phys_end (fun x => C x ∨ (d.phys_start ≤ x ∧ x < d.phys_end)) hd.2 hrest ?_
    · refine ⟨key.1, ?_⟩
      intro x hx hnc
      refine key.2 x hx ?_
      rintro (hc | hcov)
      · rcases hc with hc | hc
        · exact hnc (Or.inl hc)
        · exact hnc (Or.inr ⟨d, List.mem_cons_self d rest, hc⟩)
      · rcases hcov with ⟨d', hd', hx'⟩
        exact hnc (Or.inr ⟨d', List.mem_cons_of_mem d hd', hx'⟩)
    · -- the state after processing `d` still has all gap bytes below `phys_end` marked
      intro x hx hnc
      have hnC : ¬ C x := fun h => hnc (Or.inl h)
      have hnd : ¬ (d.phys_start ≤ x ∧ x < d.phys_end) := fun h => hnc (Or.inr h)
      by_cases hgap : pae < d.phys_start
      · rw [if_pos hgap]
        rw [markAllocatedInBytes, getBit_markAllocated]
        by_cases hxpae : x < pae
        · by_cases hin : pae / frameSize ≤ x / frameSize ∧
            x / frameSize < pae / frameSize + (d.phys_start - pae) / frameSize
          · rw [if_pos hin]
          · rw [if_neg hin]; exact hm x hxpae hnC
        · have hxlt : x < d.phys_start := by
            by_contra hge
            exact hnd ⟨by omega, hx⟩
          have hin : pae / frameSize ≤ x / frameSize ∧
              x / frameSize < pae / frameSize + (d.phys_start - pae) / frameSize := by
            have hps := hd.1
            have h4 : frameSize = 4096 := rfl
            rw [h4] at hps hal ⊢
            omega
          rw [if_pos hin]
      · rw [if_neg hgap]
        have hxlt : x < d.phys_start := by
          by_contra hge
          exact hnd ⟨by omega, hx⟩
        exact hm x (by omega) hnC

/-- C5 (amended): with page-aligned descriptors, after `initialize` every byte
offset below the managed-space end that is covered by no descriptor belongs to
a frame whose allocation bit is set.  (The sortedness hypothesis of the claim
is retained; the proof does not even need it.) -/
theorem initializeM_marks_uncovered (m0 : BitmapFrameManager)
    (descs : List Descriptor) (x : Nat)
    (halign : ∀ d ∈ descs, pageAligned d)
    (_hsorted : descs.Chain' (fun d1 d2 => d1.phys_start ≤ d2.phys_start))
    (hx : x < frameSize * (initializeM m0 descs).endF)
    (hcov : ¬ covered descs x) :
    getBit (initializeM m0 descs) (x / frameSize) = true := by
  have key := initFold_marks_gaps descs m0 0 (fun _ => False) (by decide) halign
    (by intro x hx; omega)
  have hend : (initializeM m0 descs).endF = (descs.foldl initializeStep (m0, 0)).2 / frameSize :=
    rfl
  have hget : ∀ y, getBit (initializeM m0 descs) y =
      getBit (descs.foldl initializeStep (m0, 0)).1 y := by
    intro y; rfl
  rw [hget]
  refine key.2 x ?_ ?_
  · have hpae := key.1
    rw [hend] at hx
    have h4 : frameSize = 4096 := rfl
    rw [h4] at hx hpae
    omega
  · rintro (hc | hc)
    · exact hc
    · exact hcov hc

/-- C5 counterexample: the claim as stated (sorted descriptors, no alignment
requirement) fails.  With the single descriptor `[2048, 6144)` the gap
`[0, 2048)` is a UEFI-unavailable interval, byte 0 lies in it and below the
managed end, yet its frame bit stays clear: `mark_allocated_in_bytes` rounds
`2048 / 4096` down to zero frames. -/
theorem initializeM_unaligned_gap_unmarked :
    (([⟨2048, 6144⟩] : List Descriptor).Chain' (fun d1 d2 => d1.phys_start ≤ d2.phys_start)) ∧
    ¬ covered [⟨2048, 6144⟩] 0 ∧
    0 < frameSize * (initializeM newManager [⟨2048, 6144⟩]).endF ∧
    getBit (initializeM newManager [⟨2048, 6144⟩]) (0 / frameSize) = false := by
  refine ⟨by simp, by decide, by decide, by decide⟩

theorem initializeM_marks_uncovered_witness :
    (∀ d ∈ ([⟨4096, 12288⟩] : List Descriptor), pageAligned d) ∧
    (([⟨4096, 12288⟩] : List Descriptor).Chain' (fun d1 d2 => d1.phys_start ≤ d2.phys_start)) ∧
    0 < frameSize * (initializeM newManager [⟨4096, 12288⟩]).endF ∧
    ¬ covered [⟨4096, 12288⟩] 0 ∧
    getBit (initializeM newManager [⟨4096, 12288⟩]) (0 / frameSize) = true :=
  ⟨by decide, by simp, by decide, by decide,
   initializeM_marks_uncovered newManager [⟨4096, 12288⟩] 0 (by decide) (by simp)
     (by decide) (by decide)⟩

/-! Claim C10: `allocate` is total; the search cursor strictly advances. -/

theorem allocateGo_eq (m : BitmapFrameManager) (num_frames frame : Nat) :
    allocateGo m num_frames frame =
      match scanRun m frame 0 num_frames with
      | .fits => .ok frame
      | .oob => .error .NotEnoughFrame
      | .collide i => allocateGo m num_frames (frame + i + 1) := by
  rw [allocateGo]
  split
  · rename_i h; rw [h]
  · rename_i h; rw [h]
  · rename_i i h; rw [h]

theorem allocateGo_ok_le :
    ∀ (k : Nat) (m : BitmapFrameManager) (num_frames frame f : Nat),
      m.endF - frame ≤ k → allocateGo m num_frames frame = .ok f → frame ≤ f := by
  intro k
  induction k with
  | zero =>
    intro m n frame f hk h
    rw [allocateGo_eq] at h
    cases hs : scanRun m frame 0 n with
    | fits => rw [hs] at h; simp at h; omega
    | oob => rw [hs] at h; simp at h
    | collide i =>
      have := scanRun_collide_lt hs
      omega
  | succ k ih =>
    intro m n frame f hk h
    rw [allocateGo_eq] at h
    cases hs : scanRun m frame 0 n with
    | fits => rw [hs] at h; simp at h; omega
    | oob => rw [hs] at h; simp at h
    | collide i =>
      rw [hs] at h
      have hlt := scanRun_collide_lt hs
      have := ih m n (frame + i + 1) f (by omega) h
      omega

/-- C10: `allocate` is total — for every bitmap state, managed range and
request size it returns `Ok` or `Err(NotEnoughFrame)` — and on every retry of
the first-fit search the cursor strictly advances while staying below the
range end. -/
theorem allocate_total_and_advancing :
    (∀ (m : BitmapFrameManager) (n : Nat),
      (∃ f m', allocate m n = .ok (f, m')) ∨
        allocate m n = .error .NotEnoughFrame) ∧
    (∀ (m : BitmapFrameManager) (frame i rem j : Nat),
      scanRun m frame i rem = .collide j →
        frame < frame + j + 1 ∧ frame + j < m.endF) := by
  constructor
  · intro m n
    cases h : allocate m n with
    | ok p => exact Or.inl ⟨p.1, p.2, rfl⟩
    | error e => cases e; exact Or.inr rfl
  · intro m frame i rem j h
    exact ⟨by omega, scanRun_collide_lt h⟩

/-- Concrete manager used by witnesses below: frames `{1}` allocated (line 0
holds the value 2), managed range `[1, 4)`. -/
def smallManager : BitmapFrameManager :=
  { alloc_map := fun i => if i = 0 then 2 else 0, begin_ := 1, endF := 4 }

theorem allocate_total_witness :
    ((∃ f m', allocate newManager 1 = .ok (f, m')) ∨
      allocate newManager 1 = .error .NotEnoughFrame) ∧
    (1 < 1 + 0 + 1 ∧ 1 + 0 < smallManager.endF) :=
  ⟨allocate_total_and_advancing.1 newManager 1,
   allocate_total_and_advancing.2 smallManager 1 0 1 0 (by decide)⟩

/-! Claim C6: which frame indices are reserved. -/

theorem allocate_newManager_one :
    allocate newManager 1 = .ok (1, markAllocated newManager 1 1) := by
  have h1 : scanRun newManager 1 0 1 = .fits := by decide
  have h2 : allocateGo newManager 1 1 = .ok 1 := by rw [allocateGo_eq, h1]
  have hb : newManager.begin_ = 1 := rfl
  unfold allocate
  rw [hb, h2]

/-- C6 counterexample: on the freshly constructed manager (`begin = Frame::MIN
= Frame(1)`), `allocate(1)` succeeds and returns frame 1, so the returned
range `[1, 2)` contains index 1 and the claimed bound `f ≥ 2` fails. -/
theorem allocate_returns_frame_one :
    allocate newManager 1 = .ok (1, markAllocated newManager 1 1) ∧ ¬ 2 ≤ 1 :=
  ⟨allocate_newManager_one, by decide⟩

/-- C6 (amended): only frame index 0 is reserved.  Since `new` and
`initialize` both set `begin = Frame::MIN = Frame(1)` and the first-fit scan
starts at `begin`, every successful `allocate(n)` on such a manager returns a
range `[f, f+n)` with `f ≥ 1`, hence not containing index 0 (it can contain
index 1). -/
theorem allocate_avoids_frame_zero (m : BitmapFrameManager) (n f : Nat)
    (m' : BitmapFrameManager) (hbegin : m.begin_ = 1)
    (h : allocate m n = .ok (f, m')) :
    1 ≤ f ∧ ∀ j, j < n → f + j ≠ 0 := by
  unfold allocate at h
  cases hgo : allocateGo m n m.begin_ with
  | ok fr =>
    rw [hgo] at h
    simp only [Except.ok.injEq, Prod.mk.injEq] at h
    have hle := allocateGo_ok_le (m.endF - m.begin_) m n m.begin_ fr (by omega) hgo
    have : 1 ≤ fr := by omega
    refine ⟨by omega, ?_⟩
    intro j hj
    omega
  | error e => rw [hgo] at h; simp at h

theorem allocate_avoids_frame_zero_witness :
    newManager.begin_ = 1 ∧ (1 ≤ 1 ∧ ∀ j, j < 1 → 1 + j ≠ 0) :=
  ⟨rfl, allocate_avoids_frame_zero newManager 1 1 (markAllocated newManager 1 1) rfl
    allocate_newManager_one⟩

/-! Claim C4: what `availability_in_range` counts. -/

/-- C4 counterexample: on `smallManager` (managed range `[1, 4)`, frame 1
allocated), `availability_in_range(0, 1)` returns `1/3` — the fraction of SET
bits — while the fraction of clear bits over the same sub-range is `2/3`. -/
theorem availability_is_not_clear_fraction :
    availability_in_range smallManager 0 1 ≠ some (specClearFraction smallManager 0 1) := by
  have ha : subrangeIndex smallManager 0 = 1 := by
    simp [subrangeIndex, smallManager]
  have hb : subrangeIndex smallManager 1 = 4 := by
    norm_num [subrangeIndex, smallManager]
    decide
  have hcount : (List.range' 1 3).countP (fun i => getBit smallManager i) = 1 := by decide
  have hcard : ((Finset.Ico 1 4).filter (fun i => getBit smallManager i = false)).card = 2 := by
    decide
  have hcond : (0 : ℚ) ≤ 0 ∧ (0 : ℚ) < 1 ∧ (1 : ℚ) ≤ 1 := by norm_num
  have hA : availability_in_range smallManager 0 1 = some (1 / 3) := by
    rw [availability_in_range, if_pos hcond]
    simp only [ha, hb]
    rw [show (4 : Nat) - 1 = 3 from rfl, hcount]
    norm_num
  have hB : specClearFraction smallManager 0 1 = 2 / 3 := by
    rw [specClearFraction]
    simp only [ha, hb]
    rw [hcard]
    norm_num
  rw [hA, hB]
  intro hEq
  rw [Option.some_inj] at hEq
  norm_num at hEq

/-- C4 (amended): for `0 ≤ a < b ≤ 1`, `availability_in_range(a, b)` returns
the fraction of set (allocated) bits among the frames of the sub-range
`[a', b')` of the managed space (indices by `f64` truncation, here exact over
`ℚ`). -/
theorem countP_range'_eq_card_filter_Ico (lo hi : Nat) (p : Nat → Bool) :
    (List.range' lo (hi - lo)).countP p =
      ((Finset.Ico lo hi).filter (fun i => p i = true)).card := by
  rw [Nat.Ico_eq_range', List.countP_eq_length_filter]
  have h2 : (fun i => decide (p i = true)) = p := by funext i; simp
  simp [Finset.filter, Finset.card, Multiset.filter_coe, h2]

theorem availability_counts_set_bits (m : BitmapFrameManager) (a b : ℚ)
    (h : 0 ≤ a ∧ a < b ∧ b ≤ 1) :
    availability_in_range m a b = some (specSetFraction m a b) := by
  have key := countP_range'_eq_card_filter_Ico (subrangeIndex m a) (subrangeIndex m b)
    (fun i => getBit m i)
  simp only [availability_in_range, specSetFraction, if_pos h]
  rw [key]

theorem availability_counts_set_bits_witness :
    (0 ≤ (0 : ℚ) ∧ (0 : ℚ) < 1 ∧ (1 : ℚ) ≤ 1) ∧
    availability_in_range smallManager 0 1 = some (specSetFraction smallManager 0 1) :=
  ⟨by norm_num, availability_counts_set_bits smallManager 0 1 (by norm_num)⟩

end PhysMemory

namespace Interrupts

/-! Claim C1: what `timer_handler` (interrupts.rs, lines 267-273) does on a
timer interrupt, and claim C9: the `Cli` interrupt-disable scope. -/

/-- Calls that an interrupt handler can make, recorded as a trace.
`schedulerElapse` (= `task::scheduler().elapse()`) is what the spec claims the
timer handler performs; `taskSwitch` is the `task::task_manager().switch(None)`
call the handler actually makes. -/
inductive KernelCall where
  | enqueueTimerEvent
  | lapicEoi
  | schedulerElapse
  | schedulerYield
  | taskSwitch
deriving DecidableEq, Repr

/-- State touched by the timer interrupt handler: the global `TICKS` counter
(an `AtomicUsize`, wrapping at `2 ^ 64`) and the ordered trace of the calls
the handler makes. -/
structure TimerIrqState where
  ticks : Nat
  calls : List KernelCall
deriving DecidableEq, Repr

/-- Shallow embedding of `timer_handler`: it enqueues `Event::Timer`,
increments `TICKS` (`fetch_add(1)` on a `usize`), writes EOI to the Local
APIC, and finally calls `task::task_manager().switch(None)` — a function that
does not exist in this crate's `task.rs` (which exposes `task::scheduler()`).
It never invokes `TaskScheduler::elapse`. -/
def timer_handler (s : TimerIrqState) : TimerIrqState :=
  { ticks := (s.ticks + 1) % 2 ^ 64,
    calls := s.calls ++ [.enqueueTimerEvent, .lapicEoi, .taskSwitch] }

/-- C1: the timer handler increments the tick counter, but the number of
`elapse` invocations in its trace is unchanged — `elapse` is never called, so
a timer tick does NOT invoke `elapse` (the claim requires exactly once). -/
theorem timer_handler_never_calls_elapse (s : TimerIrqState) :
    (timer_handler s).ticks = (s.ticks + 1) % 2 ^ 64 ∧
    (timer_handler s).calls.count .schedulerElapse = s.calls.count .schedulerElapse ∧
    (timer_handler s).calls.count .schedulerYield = s.calls.count .schedulerYield := by
  refine ⟨rfl, ?_, ?_⟩ <;>
    simp [timer_handler, List.count_append, List.count_cons, List.count_nil]

/-- Per-CPU interrupt bookkeeping (`CpuThreadState` in cpu.rs): `ncli` is the
depth of interrupt-disable nesting; `zcli` records — per the field's own
comment — whether interrupts were DISABLED before the outermost `pushcli`.
`ncli` is a `u32`; its wrap point is unreachable in the balanced usages below
and it is modelled as `Nat`. -/
structure CpuThreadState where
  ncli : Nat
  zcli : Bool
deriving DecidableEq, Repr

/-- `CpuThreadState::new()`. -/
def CpuThreadState.new : CpuThreadState := { ncli := 0, zcli := false }

/-- `Cli::new()` (interrupts.rs lines 45-56): `cli = !interrupts enabled`,
disable interrupts, then on the outermost acquisition (`ncli == 0`) record
`zcli = cli`; increment `ncli`.  Input `ie` is the interrupt-enable flag;
the returned flag is always `false`. -/
def cliNew (cpu : CpuThreadState) (ie : Bool) : CpuThreadState × Bool :=
  let cli := !ie
  let cpu := if cpu.ncli = 0 then { cpu with zcli := cli } else cpu
  ({ cpu with ncli := cpu.ncli + 1 }, false)

/-- `Drop for Cli` (interrupts.rs lines 58-72): asserts interrupts are
disabled (`none` models the assertion failure; `none` also models the `u32`
underflow panic of `ncli -= 1`), decrements `ncli`, and re-enables interrupts
exactly when `ncli` returns to 0 and `zcli` is false. -/
def cliDrop (cpu : CpuThreadState) (ie : Bool) : Option (CpuThreadState × Bool) :=
  if ie then none
  else
    match cpu.ncli with
    | 0 => none
    | n + 1 =>
      let cpu := { cpu with ncli := n }
      let sti := decide (cpu.ncli = 0) && !cpu.zcli
      some (cpu, sti)

/-- C9 counterexample: the claim says the outermost acquisition "records in
zcli whether interrupts were enabled".  Acquiring from the initial state with
interrupts ENABLED stores `zcli = false`. -/
theorem cliNew_zcli_polarity :
    (cliNew CpuThreadState.new true).1.zcli = false ∧ ((false : Bool) ≠ true) := by
  decide

/-- C9 (amended): acquisition increments `ncli`, disables interrupts, and on
the outermost acquisition records in `zcli` whether interrupts were DISABLED;
release decrements `ncli` and re-enables interrupts exactly when `ncli`
returns to zero and `zcli` was false; hence a balanced outermost
acquire/release pair restores the interrupt-enable state observed at the
acquisition. -/
theorem cli_scope_behavior :
    (∀ (cpu : CpuThreadState) (ie : Bool),
      (cliNew cpu ie).2 = false ∧
      (cliNew cpu ie).1.ncli = cpu.ncli + 1 ∧
      (cliNew cpu ie).1.zcli = (if cpu.ncli = 0 then !ie else cpu.zcli)) ∧
    (∀ (cpu : CpuThreadState) (n : Nat), cpu.ncli = n + 1 →
      cliDrop cpu false =
        some ({ cpu with ncli := n }, decide (n = 0) && !cpu.zcli)) ∧
    (∀ (cpu : CpuThreadState) (ie : Bool), cpu.ncli = 0 →
      (cliDrop (cliNew cpu ie).1 (cliNew cpu ie).2).map Prod.snd = some ie) := by
  refine ⟨?_, ?_, ?_⟩
  · intro cpu ie
    by_cases h : cpu.ncli = 0 <;> simp [cliNew, h]
  · intro cpu n h
    simp [cliDrop, h]
  · intro cpu ie h
    by_cases hie : ie <;> simp [cliNew, cliDrop, h, hie]

theorem cli_scope_behavior_witness :
    ((cliNew CpuThreadState.new true).2 = false ∧
      (cliNew CpuThreadState.new true).1.ncli = CpuThreadState.new.ncli + 1 ∧
      (cliNew CpuThreadState.new true).1.zcli =
        (if CpuThreadState.new.ncli = 0 then !true else CpuThreadState.new.zcli)) ∧
    (cliDrop ⟨1, true⟩ false =
      some ({ (⟨1, true⟩ : CpuThreadState) with ncli := 0 },
        decide ((0 : Nat) = 0) && !(⟨1, true⟩ : CpuThreadState).zcli)) ∧
    ((cliDrop (cliNew CpuThreadState.new true).1 (cliNew CpuThreadState.new true).2).map
      Prod.snd = some true) :=
  ⟨cli_scope_behavior.1 CpuThreadState.new true,
   cli_scope_behavior.2.1 ⟨1, true⟩ 0 rfl,
   cli_scope_behavior.2.2 CpuThreadState.new true rfl⟩

end Interrupts

namespace Task

/-! Claim C8: `TaskQueue::dequeue` (task.rs, lines 179-222). -/

/-- The four priority levels L0 (lowest) .. L3 (highest). -/
inductive Priority where
  | L0
  | L1
  | L2
  | L3
deriving DecidableEq, Repr

/-- `Priority::index`. -/
def Priority.index : Priority → Nat
  | .L0 => 0
  | .L1 => 1
  | .L2 => 2
  | .L3 => 3

/-- `Priority::SIZE`. -/
def prioritySize : Nat := 4

/-- A task as far as `dequeue` observes it: its id, priority, and the
`saved` flag of its context (`mark_as_not_saved` clears it; `wait_saved`
spin-waits without changing queue state and is a no-op here). -/
structure Task where
  id : Nat
  priority : Priority
  saved : Bool
deriving DecidableEq, Repr

/-- `Switch` from task.rs: a wait channel is a `u64` token, a timeout is in
ticks. -/
inductive Switch where
  | Blocked (chan : Nat) (timeout : Option Nat)
  | Sleep (t : Nat)
  | Yield
deriving DecidableEq, Repr

/-- `TaskQueue`: one FIFO per priority level (`runnable_tasks i` for
`i < 4`; list head = queue front), the pending map, the per-channel block
lists, and the timeout min-heap (modelled as an unordered collection; only
insertion is exercised by `dequeue`). -/
structure TaskQueue where
  pending_id_gen : Nat
  runnable_tasks : Nat → List Task
  pending_tasks : List (Nat × Task)
  blocks : List (Nat × List Nat)
  timeouts : List (Nat × Nat × Option Nat)

/-- `self.blocks.entry(chan).or_default().push(id)`. -/
def pushBlock : List (Nat × List Nat) → Nat → Nat → List (Nat × List Nat)
  | [], chan, id => [(chan, [id])]
  | (c, ids) :: rest, chan, id =>
    if c = chan then (c, ids ++ [id]) :: rest else (c, ids) :: pushBlock rest chan id

/-- The priority threshold of `dequeue`: the current task's level for
`Yield`, 0 otherwise. -/
def minimumLevelIndex (current_task : Task) (current_switch : Switch) : Nat :=
  match current_switch with
  | .Yield => current_task.priority.index
  | _ => 0

/-- The iterator chain `runnable_tasks.iter_mut().enumerate().rev()
.take_while(min <= i).find_map(pop_front)`: scan the candidate level list
from the top and return the first level with a non-empty FIFO together with
its front task. -/
def findRunnable (q : TaskQueue) : List Nat → Option (Nat × Task)
  | [] => none
  | l :: ls =>
    match q.runnable_tasks l with
    | [] => findRunnable q ls
    | t :: _ => some (l, t)

/-- The `match current_switch` block of `dequeue` that disposes of
`current_task` (whose `saved` flag was just cleared) after a next task has
been popped: `Blocked` registers it in `pending_tasks`/`blocks` (plus the
timeout heap if a timeout is given), `Sleep` in `pending_tasks` plus the
heap, `Yield` re-enqueues it on its own priority FIFO. -/
def disposeCurrent (q : TaskQueue) (now : Nat) (current_task : Task) :
    Switch → TaskQueue
  | .Blocked chan timeout =>
    let id := q.pending_id_gen
    let touts :=
      match timeout with
      | some t => (now + t, id, some chan) :: q.timeouts
      | none => q.timeouts
    { q with
      pending_id_gen := q.pending_id_gen + 1,
      pending_tasks := (id, current_task) :: q.pending_tasks,
      blocks := pushBlock q.blocks chan id,
      timeouts := touts }
  | .Sleep t =>
    let id := q.pending_id_gen
    { q with
      pending_id_gen := q.pending_id_gen + 1,
      pending_tasks := (id, current_task) :: q.pending_tasks,
      timeouts := (now + t, id, none) :: q.timeouts }
  | .Yield =>
    let idx := current_task.priority.index
    let fifo := q.runnable_tasks idx ++ [current_task]
    let pushed := Function.update q.runnable_tasks idx fifo
    { q with runnable_tasks := pushed }

/-- Shallow embedding of `TaskQueue::dequeue(current_task, current_switch)`.
`now` is the value of the global `ticks()` counter read when pushing timeout
entries.  Returns the next task and the updated queue. -/
def dequeue (q : TaskQueue) (now : Nat) (current_task : Task)
    (current_switch : Switch) : Task × TaskQueue :=
  let minimum_level_index := minimumLevelIndex current_task current_switch
  let levels := ((List.range prioritySize).reverse).takeWhile
    (fun i => minimum_level_index ≤ i)
  match findRunnable q levels with
  | none => (current_task, q)
  | some (level, next_task) =>
    let popped := Function.update q.runnable_tasks level (q.runnable_tasks level).tail
    let q := { q with runnable_tasks := popped }
    let current_task := { current_task with saved := false }
    let q := disposeCurrent q now current_task current_switch
    (next_task, q)

theorem findRunnable_eq_none (q : TaskQueue) (ls : List Nat)
    (h : ∀ l ∈ ls, q.runnable_tasks l = []) : findRunnable q ls = none := by
  induction ls with
  | nil => rfl
  | cons l ls ih =>
    rw [findRunnable, h l (List.mem_cons_self l ls)]
    exact ih fun x hx => h x (List.mem_cons_of_mem _ hx)

theorem findRunnable_append_empties (q : TaskQueue) (pre : List Nat) (L : Nat)
    (rest : List Nat) (t : Task) (ts : List Task)
    (hpre : ∀ l ∈ pre, q.runnable_tasks l = [])
    (hL : q.runnable_tasks L = t :: ts) :
    findRunnable q (pre ++ L :: rest) = some (L, t) := by
  induction pre with
  | nil => rw [List.nil_append, findRunnable, hL]
  | cons p pre ih =>
    rw [List.cons_append, findRunnable, hpre p (List.mem_cons_self p pre)]
    exact ih fun x hx => hpre x (List.mem_cons_of_mem _ hx)

theorem levels_decomposition (min L : Nat) (hmin : min ≤ L) (hL : L < 4) :
    ∃ pre rest, ((List.range prioritySize).reverse).takeWhile (fun i => min ≤ i) =
      pre ++ L :: rest ∧ ∀ l ∈ pre, L < l ∧ l < 4 := by
  interval_cases L
  · interval_cases min
    · exact ⟨[3, 2, 1], [], by decide, by decide⟩
  · interval_cases min
    · exact ⟨[3, 2], [0], by decide, by decide⟩
    · exact ⟨[3, 2], [], by decide, by decide⟩
  · interval_cases min
    · exact ⟨[3], [1, 0], by decide, by decide⟩
    · exact ⟨[3], [1], by decide, by decide⟩
    · exact ⟨[3], [], by decide, by decide⟩
  · interval_cases min
    · exact ⟨[], [2, 1, 0], by decide, by decide⟩
    · exact ⟨[], [2, 1], by decide, by decide⟩
    · exact ⟨[], [2], by decide, by decide⟩
    · exact ⟨[], [], by decide, by decide⟩

/-- C8: `dequeue` pops the front of the highest-priority non-empty FIFO whose
level is at least the threshold (the current task's level for `Yield`, 0
otherwise); if every such FIFO is empty it returns `current_task` with the
queue unchanged. -/
theorem dequeue_picks_front_of_highest (q : TaskQueue) (now : Nat)
    (cur : Task) (sw : Switch) :
    ((∀ l, minimumLevelIndex cur sw ≤ l → l < 4 → q.runnable_tasks l = []) →
      dequeue q now cur sw = (cur, q)) ∧
    (∀ L, minimumLevelIndex cur sw ≤ L → L < 4 → q.runnable_tasks L ≠ [] →
      (∀ l, L < l → l < 4 → q.runnable_tasks l = []) →
      (q.runnable_tasks L).head? = some (dequeue q now cur sw).1 ∧
      (dequeue q now cur sw).2.runnable_tasks L =
        (q.runnable_tasks L).tail ++
          (if sw = .Yield ∧ cur.priority.index = L
           then [{ cur with saved := false }] else [])) := by
  constructor
  · intro hall
    have hnone : findRunnable q (((List.range prioritySize).reverse).takeWhile
        (fun i => minimumLevelIndex cur sw ≤ i)) = none := by
      apply findRunnable_eq_none
      intro l hl
      have hp := List.mem_takeWhile_imp hl
      have hmem : l ∈ (List.range prioritySize).reverse :=
        (List.takeWhile_sublist _).subset hl
      rw [List.mem_reverse, List.mem_range] at hmem
      exact hall l (of_decide_eq_true hp) hmem
    simp only [dequeue]
    rw [hnone]
  · intro L hminL hL4 hne hupper
    rcases hqL : q.runnable_tasks L with _ | ⟨t, ts⟩
    · exact absurd hqL hne
    obtain ⟨pre, rest, hdecomp, hpre⟩ :=
      levels_decomposition (minimumLevelIndex cur sw) L hminL hL4
    have hfr : findRunnable q (((List.range prioritySize).reverse).takeWhile
        (fun i => minimumLevelIndex cur sw ≤ i)) = some (L, t) := by
      rw [hdecomp]
      exact findRunnable_append_empties q pre L rest t ts
        (fun l hl => hupper l (hpre l hl).1 (hpre l hl).2) hqL
    constructor
    · cases sw with
      | Blocked chan timeout =>
        simp only [dequeue]; rw [hfr]
        cases timeout <;> rfl
      | Sleep tt =>
        simp only [dequeue]; rw [hfr]; rfl
      | Yield =>
        simp only [dequeue]; rw [hfr]; rfl
    · cases sw with
      | Blocked chan timeout =>
        simp only [dequeue]; rw [hfr]
        cases timeout <;> simp [disposeCurrent, Function.update_apply, hqL]
      | Sleep tt =>
        simp only [dequeue]; rw [hfr]
        simp [disposeCurrent, Function.update_apply, hqL]
      | Yield =>
        simp only [dequeue]; rw [hfr]
        by_cases hpi : cur.priority.index = L
        · simp [disposeCurrent, Function.update_apply, hqL, hpi]
        · have hpi' : ¬ (L = cur.priority.index) := fun h => hpi h.symm
          simp [disposeCurrent, Function.update_apply, hqL, hpi, hpi']

/-- Concrete queues and tasks for the C8 witness. -/
def qEmpty : TaskQueue := ⟨0, fun _ => [], [], [], []⟩

def taskA : Task := ⟨7, .L2, true⟩

def qOne : TaskQueue := ⟨0, fun l => if l = 2 then [taskA] else [], [], [], []⟩

def curT : Task := ⟨1, .L1, true⟩

theorem dequeue_picks_front_of_highest_witness :
    (dequeue qEmpty 0 curT .Yield = (curT, qEmpty)) ∧
    ((qOne.runnable_tasks 2).head? = some (dequeue qOne 0 curT (.Sleep 5)).1 ∧
      (dequeue qOne 0 curT (.Sleep 5)).2.runnable_tasks 2 =
        (qOne.runnable_tasks 2).tail ++
          (if (Switch.Sleep 5) = .Yield ∧ curT.priority.index = 2
           then [{ curT with saved := false }] else [])) :=
  ⟨(dequeue_picks_front_of_highest qEmpty 0 curT .Yield).1 (fun _ _ _ => rfl),
   (dequeue_picks_front_of_highest qOne 0 curT (.Sleep 5)).2 2 (by decide) (by decide)
     (by decide)
     (fun l h1 h2 => by
       have hl : l = 3 := by omega
       subst hl
       rfl)⟩

end Task

namespace Virtio

/-! Claims C7 (virtqueue descriptor conservation) and C2/C3 (block driver
capacity gate), from `devices/virtio/queue.rs` and `devices/virtio/block.rs`. -/

/-- One entry of the split-virtqueue descriptor table.  `next` merges the
`NEXT` flag bit with the `next` field exactly as the `Descriptor::next` /
`set_next` accessors read and write them; `write` is the `WRITE` flag. -/
structure Descriptor where
  addr : Nat
  len : Nat
  write : Bool
  next : Option Nat
deriving DecidableEq, Repr

/-- `Descriptor::refer`: stores address, length and the WRITE flag; the NEXT
flag and `next` field are untouched. -/
def Descriptor.refer (d : Descriptor) (addr len : Nat) (write : Bool) : Descriptor :=
  { d with addr := addr, len := len, write := write }

/-- `Descriptor::set_next`. -/
def Descriptor.setNext (d : Descriptor) (n : Option Nat) : Descriptor :=
  { d with next := n }

/-- `Buffer<T>` from queue.rs: physical address, length, device-write flag
and the caller's associated data. -/
structure Buffer (T : Type) where
  addr : Nat
  len : Nat
  write : Bool
  associated_data : T
deriving DecidableEq, Repr

/-- Driver-visible state of `VirtQueue<T>`.  The descriptor table, available
ring and associated-data array are modelled as functions from index; the used
ring is device-written memory and does not appear (the reachability relation
below hands each used-ring entry to `collect` as the head of a
previously-transferred chain).  `avail_idx` and `last_used_idx` are `u16`
(wrap written explicitly). -/
structure VirtQueue (T : Type) where
  queue_size : Nat
  descriptor_table : Nat → Descriptor
  avail_ring : Nat → Nat
  avail_idx : Nat
  last_used_idx : Nat
  first_free_descriptor : Nat
  num_free_descriptors : Nat
  buffer_associated_data : Nat → Option T

/-- `VirtQueue::new` after the device handshake: memory zeroed, descriptors
`0 .. queue_size-2` threaded into a free chain via `set_next(Some(i+1))`
(descriptor `queue_size-1` keeps its zeroed NEXT flag, i.e. `next() = None`),
`last_used_idx = 0`, `first_free_descriptor = 0`,
`num_free_descriptors = queue_size`, no associated data. -/
def freshQueue (T : Type) (n : Nat) : VirtQueue T :=
  { queue_size := n
    descriptor_table := fun i =>
      { addr := 0, len := 0, write := false,
        next := if i + 1 < n then some (i + 1) else none }
    avail_ring := fun _ => 0
    avail_idx := 0
    last_used_idx := 0
    first_free_descriptor := 0
    num_free_descriptors := n
    buffer_associated_data := fun _ => none }

/-- The `for buffer in buffers` loop of `VirtQueue::transfer`, threading the
running `last` value.  `none` models a `panic!`/`assert!` failure.  Each step
takes the current head of the free chain, writes the buffer via `refer`,
asserts the associated-data slot is vacant and fills it, and advances the
free-chain head (`num_free_descriptors == 1` instead asserts the chain ends
here). -/
def transferLoop {T : Type} (q : VirtQueue T) :
    List (Buffer T) → Option Nat → Option (VirtQueue T × Option Nat)
  | [], last => some (q, last)
  | buffer :: rest, _ =>
    let i := q.first_free_descriptor
    let d := (q.descriptor_table i).refer buffer.addr buffer.len buffer.write
    let q1 := { q with descriptor_table := Function.update q.descriptor_table i d }
    match q1.buffer_associated_data i with
    | some _ => none
    | none =>
      let assoc := Function.update q1.buffer_associated_data i (some buffer.associated_data)
      let q2 := { q1 with buffer_associated_data := assoc }
      match q2.num_free_descriptors with
      | 0 => none
      | 1 =>
        match (q2.descriptor_table i).next with
        | some _ => none
        | none => transferLoop { q2 with num_free_descriptors := 0 } rest (some i)
      | _ + 2 =>
        match (q2.descriptor_table i).next with
        | none => none
        | some j =>
          let q3 := { q2 with first_free_descriptor := j }
          transferLoop { q3 with num_free_descriptors := q3.num_free_descriptors - 1 }
            rest (some i)

/-- `VirtQueue::transfer`: fail fast (`Except.error`, queue untouched) when
fewer free descriptors than buffers; otherwise run the loop, clear NEXT on
the last consumed descriptor, publish the first index in the available ring
and bump `avail_ring.idx` (a wrapping `u16`).  The outer `none` models a
panic inside the loop. -/
def transfer {T : Type} (q : VirtQueue T) (buffers : List (Buffer T)) :
    Option (Except Unit (VirtQueue T)) :=
  if q.num_free_descriptors < buffers.length then some (.error ())
  else
    let first := q.first_free_descriptor
    match transferLoop q buffers none with
    | none => none
    | some (q1, last) =>
      match last with
      | none => some (.ok q1)
      | some l =>
        let dl := (q1.descriptor_table l).setNext none
        let q2 := { q1 with descriptor_table := Function.update q1.descriptor_table l dl }
        let ring := Function.update q2.avail_ring (q2.avail_idx % q2.queue_size) first
        let q3 := { q2 with avail_ring := ring }
        let q4 := { q3 with avail_idx := (q3.avail_idx + 1) % 65536 }
        some (.ok q4)

/-- The `free descriptors` loop of `VirtQueue::collect` applied to the chain
`c` (the source walks the descriptor `next` pointers starting from the head
the device returned; the reachability relation requires `c` to be exactly
that walk).  Each element is pushed onto the front of the free chain and its
associated-data slot is taken; a vacant slot is the `associated_data.unwrap()`
panic, modelled as `none`.  Returns the collected data in callback order. -/
def collectChain {T : Type} (q : VirtQueue T) : List Nat → Option (VirtQueue T × List T)
  | [] => some (q, [])
  | i :: rest =>
    let prev := if q.num_free_descriptors = 0 then none else some q.first_free_descriptor
    let q0 := { q with first_free_descriptor := i }
    let q1 := { q0 with num_free_descriptors := q0.num_free_descriptors + 1 }
    let di := (q1.descriptor_table i).setNext prev
    let q2 := { q1 with descriptor_table := Function.update q1.descriptor_table i di }
    let a := q2.buffer_associated_data i
    let assoc := Function.update q2.buffer_associated_data i none
    let q3 := { q2 with buffer_associated_data := assoc }
    match a with
    | none => none
    | some x =>
      match collectChain q3 rest with
      | none => none
      | some (q4, xs) => some (q4, x :: xs)

/-- One iteration of the `while last_used_idx != used.idx` loop of
`VirtQueue::collect`: consume one used-ring entry (bumping the wrapping
`u16` `last_used_idx`) and free the descriptor chain it heads. -/
def collectOne {T : Type} (q : VirtQueue T) (c : List Nat) :
    Option (VirtQueue T × List T) :=
  let q1 := { q with last_used_idx := (q.last_used_idx + 1) % 65536 }
  collectChain q1 c

/-- The walk of the descriptor `next` pointers from index `i` (as the
`collect` loop performs it), fuelled to stay total. -/
def walkChain (desc : Nat → Descriptor) (i : Nat) : Nat → Option (List Nat)
  | 0 => none
  | fuel + 1 =>
    match (desc i).next with
    | none => some [i]
    | some j =>
      match walkChain desc j fuel with
      | none => none
      | some l => some (i :: l)

/-- The free-descriptor chain as the driver sees it: follow `next` from
`first_free_descriptor` for `num_free_descriptors` steps. -/
def chainFrom (desc : Nat → Descriptor) : Nat → Nat → List Nat
  | _, 0 => []
  | i, k + 1 =>
    i :: (match (desc i).next with
      | some j => chainFrom desc j k
      | none => [])

/-- The free chain of a queue state. -/
def freeChainList {T : Type} (q : VirtQueue T) : List Nat :=
  chainFrom q.descriptor_table q.first_free_descriptor q.num_free_descriptors

/-- States reachable from a freshly constructed queue of size `n` by
successful `transfer`s and `collect`s.  `out` is the list of descriptor
chains currently owned by the device (transferred, not yet collected), in
submission order; `collect_step` lets the device complete any outstanding
chain (`collect` drains the used ring one entry at a time), requiring the
processed list to be exactly the pointer walk from the returned head. -/
inductive Reach (T : Type) (n : Nat) : VirtQueue T → List (List Nat) → Prop where
  | init : Reach T n (freshQueue T n) []
  | transfer_step {q : VirtQueue T} {out : List (List Nat)}
      {buffers : List (Buffer T)} {q' : VirtQueue T} :
      Reach T n q out →
      transfer q buffers = some (.ok q') →
      buffers ≠ [] →
      Reach T n q' (out ++ [(freeChainList q).take buffers.length])
  | collect_step {q : VirtQueue T} {pre post : List (List Nat)} {c : List Nat}
      {h : Nat} {q' : VirtQueue T} {xs : List T} :
      Reach T n q (pre ++ c :: post) →
      c.head? = some h →
      walkChain q.descriptor_table h n = some c →
      collectOne q c = some (q', xs) →
      Reach T n q' (pre ++ post)

/-- Well-formed descriptor chain: consecutive elements are linked by the
`next` pointers and the last element's `next` is `None`. -/
def wfChain (desc : Nat → Descriptor) (c : List Nat) : Prop :=
  c.Chain' (fun a b => (desc a).next = some b) ∧
  (∀ l, c.getLast? = some l → (desc l).next = none)

@[simp] theorem refer_next (d : Descriptor) (a l : Nat) (w : Bool) :
    (d.refer a l w).next = d.next := rfl

@[simp] theorem setNext_next (d : Descriptor) (n : Option Nat) :
    (d.setNext n).next = n := rfl

theorem chainFrom_congr {d1 d2 : Nat → Descriptor}
    (h : ∀ i, (d1 i).next = (d2 i).next) :
    ∀ (k i : Nat), chainFrom d1 i k = chainFrom d2 i k := by
  intro k
  induction k with
  | zero => intro i; rfl
  | succ k ih =>
    intro i
    rw [chainFrom, chainFrom, h i]
    cases (d2 i).next with
    | none => rfl
    | some j =>
      show i :: chainFrom d1 j k = i :: chainFrom d2 j k
      rw [ih j]

theorem wfChain_congr {d1 d2 : Nat → Descriptor}
    (h : ∀ i, (d1 i).next = (d2 i).next) (c : List Nat) :
    wfChain d1 c ↔ wfChain d2 c := by
  unfold wfChain
  constructor
  · rintro ⟨hc, hl⟩
    exact ⟨hc.imp fun {a b} hab => (h a).symm.trans hab,
      fun l hlast => (h l).symm.trans (hl l hlast)⟩
  · rintro ⟨hc, hl⟩
    exact ⟨hc.imp fun {a b} hab => (h a).trans hab,
      fun l hlast => (h l).trans (hl l hlast)⟩

theorem chainFrom_update_not_mem {d : Nat → Descriptor} {l : Nat} {v : Descriptor} :
    ∀ (k i : Nat), l ∉ chainFrom d i k →
      chainFrom (Function.update d l v) i k = chainFrom d i k := by
  intro k
  induction k with
  | zero => intro i _; rfl
  | succ k ih =>
    intro i hmem
    have hi : i ≠ l := by
      intro h
      apply hmem
      rw [chainFrom, h]
      exact List.mem_cons_self l _
    rw [chainFrom, chainFrom, Function.update_noteq hi]
    cases hnext : (d i).next with
    | none => rfl
    | some j =>
      show i :: chainFrom (Function.update d l v) j k = i :: chainFrom d j k
      rw [ih j]
      intro hj
      apply hmem
      rw [chainFrom, hnext]
      exact List.mem_cons_of_mem i hj

theorem chainFrom_of_chain {d : Nat → Descriptor} :
    ∀ (c : List Nat) (f : Nat), c.head? = some f →
      c.Chain' (fun a b => (d a).next = some b) →
      (∀ l, c.getLast? = some l → (d l).next = none) →
      chainFrom d f c.length = c := by
  intro c
  induction c with
  | nil => intro f hf; simp at hf
  | cons a c ih =>
    intro f hf hchain hlast
    rw [List.head?_cons, Option.some_inj] at hf
    subst hf
    cases c with
    | nil =>
      have hn := hlast a (by rfl)
      simp [chainFrom, hn]
    | cons b c' =>
      have hab : (d a).next = some b := (List.chain'_cons.mp hchain).1
      rw [List.length_cons, chainFrom, hab]
      have htail := ih b rfl (List.chain'_cons.mp hchain).2
        (fun l hl => hlast l (by rw [List.getLast?_cons_cons]; exact hl))
      show a :: chainFrom d b (b :: c').length = a :: b :: c'
      rw [htail]

/-- The free chain of a freshly constructed queue is `[0, 1, …, n-1]`. -/
theorem chainFrom_fresh (T : Type) (n : Nat) :
    ∀ (k i : Nat), i + k = n →
      chainFrom (freshQueue T n).descriptor_table i k = List.range' i k := by
  intro k
  induction k with
  | zero => intro i _; rfl
  | succ k ih =>
    intro i hik
    rw [chainFrom, List.range'_succ]
    have hnext : ((freshQueue T n).descriptor_table i).next =
        (if i + 1 < n then some (i + 1) else none) := rfl
    cases k with
    | zero =>
      have : ¬ (i + 1 < n) := by omega
      rw [hnext, if_neg this]
      rfl
    | succ k' =>
      have hlt : i + 1 < n := by omega
      rw [hnext, if_pos hlt]
      show i :: chainFrom (freshQueue T n).descriptor_table (i + 1) (k' + 1) =
        i :: List.range' (i + 1) (k' + 1)
      rw [ih (i + 1) (by omega)]

theorem freeChainList_fresh (T : Type) (n : Nat) :
    freeChainList (freshQueue T n) = List.range' 0 n :=
  chainFrom_fresh T n n 0 (by omega)

theorem range'_getLast? : ∀ (k i : Nat),
    (List.range' i (k + 1)).getLast? = some (i + k) := by
  intro k
  induction k with
  | zero => intro i; rfl
  | succ k ih =>
    intro i
    rw [List.range'_succ, List.range'_succ, List.getLast?_cons_cons]
    show (List.range' (i + 1) (k + 1)).getLast? = some (i + (k + 1))
    rw [ih (i + 1)]
    congr 1
    omega

theorem wfChain_fresh (T : Type) (n : Nat) :
    wfChain (freshQueue T n).descriptor_table (List.range' 0 n) := by
  constructor
  · have : ∀ (k i : Nat), i + k = n →
        (List.range' i k).Chain'
          (fun a b => ((freshQueue T n).descriptor_table a).next = some b) := by
      intro k
      induction k with
      | zero => intro i _; simp
      | succ k ih =>
        intro i hik
        rw [List.range'_succ]
        cases k with
        | zero => simp
        | succ k' =>
          rw [List.range'_succ]
          refine List.chain'_cons.mpr ⟨?_, ?_⟩
          · show (if i + 1 < n then some (i + 1) else none) = some (i + 1)
            rw [if_pos (by omega)]
          · rw [← List.range'_succ]
            exact ih (i + 1) (by omega)
    exact this n 0 (by omega)
  · intro l hlast
    cases n with
    | zero => simp at hlast
    | succ m =>
      rw [range'_getLast?, Option.some_inj] at hlast
      subst hlast
      show (if 0 + m + 1 < m + 1 then some (0 + m + 1) else none) = none
      rw [if_neg (by omega)]

theorem getLast?_cons_of_ne_nil {α : Type} {a : α} {l : List α} (h : l ≠ []) :
    (a :: l).getLast? = l.getLast? := by
  cases l with
  | nil => exact absurd rfl h
  | cons b m => rw [List.getLast?_cons_cons]

theorem wfChain_tail {d : Nat → Descriptor} {a : Nat} {l : List Nat}
    (h : wfChain d (a :: l)) : wfChain d l := by
  obtain ⟨hc, hl⟩ := h
  refine ⟨(List.chain'_cons'.mp hc).2, ?_⟩
  intro x hx
  apply hl
  rw [getLast?_cons_of_ne_nil]
  · exact hx
  · intro hnil
    rw [hnil] at hx
    simp at hx

/-- The invariant maintained by `transfer` and `collect`: the queue size is
`n`; the free chain is well formed, has exactly `num_free_descriptors`
elements; every outstanding (device-owned) chain is non-empty and well
formed; the free chain and the outstanding chains are pairwise disjoint and
together cover exactly the indices `0 .. n-1`; and the associated-data slot
of an index is vacant exactly when the index is free. -/
def Inv {T : Type} (n : Nat) (q : VirtQueue T) (out : List (List Nat)) : Prop :=
  q.queue_size = n ∧
  wfChain q.descriptor_table (freeChainList q) ∧
  (freeChainList q).length = q.num_free_descriptors ∧
  (∀ c ∈ out, c ≠ [] ∧ wfChain q.descriptor_table c) ∧
  (freeChainList q ++ out.flatten).Nodup ∧
  (∀ i, i ∈ freeChainList q ++ out.flatten ↔ i < n) ∧
  (∀ i, i < n → (q.buffer_associated_data i = none ↔ i ∈ freeChainList q))

theorem inv_init (T : Type) (n : Nat) : Inv n (freshQueue T n) [] := by
  refine ⟨rfl, ?_, ?_, ?_, ?_, ?_, ?_⟩
  · rw [freeChainList_fresh]; exact wfChain_fresh T n
  · rw [freeChainList_fresh]; simp [freshQueue]
  · intro c hc; simp at hc
  · rw [freeChainList_fresh]; simpa using List.nodup_range' (s := 0) (n := n)
  · intro i
    rw [freeChainList_fresh]
    simp [List.mem_range'_1]
  · intro i hi
    rw [freeChainList_fresh]
    simp [freshQueue, List.mem_range'_1]
    omega

/-- The `last` value produced by the transfer loop: the last consumed
descriptor index, or the incoming value when no buffer is consumed. -/
def lastOf (free : List Nat) (k : Nat) (last0 : Option Nat) : Option Nat :=
  match (free.take k).getLast? with
  | none => last0
  | some l => some l

theorem lastOf_cons (f0 : Nat) (ftail : List Nat) (k : Nat) (last0 : Option Nat) :
    lastOf ftail k (some f0) = lastOf (f0 :: ftail) (k + 1) last0 := by
  unfold lastOf
  rw [List.take_succ_cons]
  cases htk : (ftail.take k).getLast? with
  | none =>
    have hnil : ftail.take k = [] := by
      cases h : ftail.take k with
      | nil => rfl
      | cons x xs => rw [h] at htk; simp [List.getLast?_concat] at htk
    rw [hnil]
    rfl
  | some l =>
    have hne : ftail.take k ≠ [] := by
      intro h; rw [h] at htk; simp at htk
    rw [getLast?_cons_of_ne_nil hne, htk]

/-- Specification of the transfer loop: starting from a state whose free
chain is the duplicate-free list `free` with vacant associated-data slots, a
run over `buffers` (with `buffers.length ≤ free.length`) succeeds, consumes
exactly the first `buffers.length` elements of `free` (filling their
associated-data slots), leaves every descriptor's `next` field and the rings
untouched, and reports the last consumed index. -/
theorem transferLoop_spec {T : Type} :
    ∀ (buffers : List (Buffer T)) (q : VirtQueue T) (free : List Nat)
      (last0 : Option Nat),
      freeChainList q = free →
      wfChain q.descriptor_table free →
      free.length = q.num_free_descriptors →
      free.Nodup →
      (∀ i ∈ free, q.buffer_associated_data i = none) →
      buffers.length ≤ free.length →
      ∃ q1, transferLoop q buffers last0 = some (q1, lastOf free buffers.length last0) ∧
        q1.queue_size = q.queue_size ∧
        q1.avail_ring = q.avail_ring ∧
        q1.avail_idx = q.avail_idx ∧
        q1.last_used_idx = q.last_used_idx ∧
        (∀ i, (q1.descriptor_table i).next = (q.descriptor_table i).next) ∧
        q1.num_free_descriptors = q.num_free_descriptors - buffers.length ∧
        freeChainList q1 = free.drop buffers.length ∧
        (∀ i, i ∉ free.take buffers.length →
          q1.buffer_associated_data i = q.buffer_associated_data i) ∧
        (∀ i ∈ free.take buffers.length, q1.buffer_associated_data i ≠ none) := by
  intro buffers
  induction buffers with
  | nil =>
    intro q free last0 hfc _hwf _hlen _hnd _hassoc _hle
    refine ⟨q, rfl, rfl, rfl, rfl, rfl, fun _ => rfl, ?_, ?_, ?_, ?_⟩
    · show q.num_free_descriptors = q.num_free_descriptors - ([] : List (Buffer T)).length
      simp
    · show freeChainList q = free.drop ([] : List (Buffer T)).length
      simpa using hfc
    · intro i _; rfl
    · intro i hi; simp at hi
  | cons b rest ih =>
    intro q free last0 hfc hwf hlen hnd hassoc hle
    rw [List.length_cons] at hle
    obtain ⟨f0, ftail, rfl⟩ : ∃ f0 ftail, free = f0 :: ftail := by
      cases free with
      | nil => simp at hle
      | cons x xs => exact ⟨x, xs, rfl⟩
    have hnf : q.num_free_descriptors = ftail.length + 1 := by
      rw [← hlen]; simp
    have hchainfc : chainFrom q.descriptor_table q.first_free_descriptor
        q.num_free_descriptors = f0 :: ftail := hfc
    rw [hnf, chainFrom, List.cons.injEq] at hchainfc
    obtain ⟨hfirst, htailm⟩ := hchainfc
    rw [hfirst] at htailm
    have ha0 : q.buffer_associated_data f0 = none :=
      hassoc f0 (List.mem_cons_self f0 ftail)
    have hf0tail : f0 ∉ ftail := (List.nodup_cons.mp hnd).1
    have hndtail : ftail.Nodup := (List.nodup_cons.mp hnd).2
    cases ftail with
    | nil =>
      have hrest : rest = [] := by
        cases rest with
        | nil => rfl
        | cons y ys =>
          rw [List.length_cons] at hle
          have h1 : ((f0 :: ([] : List Nat))).length = 1 := rfl
          rw [h1] at hle
          omega
      subst hrest
      have hlastnone : (q.descriptor_table f0).next = none :=
        hwf.2 f0 (by rfl)
      refine ⟨{ q with
          descriptor_table := Function.update q.descriptor_table f0
            ((q.descriptor_table f0).refer b.addr b.len b.write),
          buffer_associated_data := Function.update q.buffer_associated_data f0
            (some b.associated_data),
          first_free_descriptor := f0,
          num_free_descriptors := 0 }, ?_, rfl, rfl, rfl, rfl, ?_, ?_, ?_, ?_, ?_⟩
      · simp only [transferLoop, hfirst, ha0, hnf, List.length_nil,
          Function.update_same, refer_next, hlastnone]
        rfl
      · intro i
        by_cases h : i = f0
        · subst h
          show (Function.update q.descriptor_table i
            ((q.descriptor_table i).refer b.addr b.len b.write) i).next =
            (q.descriptor_table i).next
          rw [Function.update_same]
          rfl
        · show (Function.update q.descriptor_table f0
            ((q.descriptor_table f0).refer b.addr b.len b.write) i).next =
            (q.descriptor_table i).next
          rw [Function.update_noteq h]
      · simp [hnf]
      · show chainFrom _ _ 0 = List.drop (List.length [b]) [f0]
        rfl
      · intro i hi
        simp only [List.length_cons, List.length_nil, List.take_succ_cons,
          List.take_nil, List.mem_singleton] at hi
        show Function.update q.buffer_associated_data f0 (some b.associated_data) i =
          q.buffer_associated_data i
        rw [Function.update_noteq hi]
      · intro i hi
        simp only [List.length_cons, List.length_nil, List.take_succ_cons,
          List.take_nil, List.mem_singleton] at hi
        subst hi
        show Function.update q.buffer_associated_data i (some b.associated_data) i ≠ none
        rw [Function.update_same]
        simp
    | cons f1 ftail' =>
      cases hnx : (q.descriptor_table f0).next with
      | none =>
        rw [hnx] at htailm
        simp at htailm
      | some j =>
        rw [hnx] at htailm
        have htailc : chainFrom q.descriptor_table j ((f1 :: ftail').length) =
          f1 :: ftail' := htailm
        have hj : j = f1 := by
          have h3 := htailc
          rw [List.length_cons, chainFrom, List.cons.injEq] at h3
          exact h3.1
        subst hj
        have hnextpres : ∀ i,
            ((Function.update q.descriptor_table f0
              ((q.descriptor_table f0).refer b.addr b.len b.write)) i).next =
            (q.descriptor_table i).next := by
          intro i
          by_cases h : i = f0
          · subst h; rw [Function.update_same]; rfl
          · rw [Function.update_noteq h]
        have hrec := ih
          { q with
              descriptor_table := Function.update q.descriptor_table f0
                ((q.descriptor_table f0).refer b.addr b.len b.write),
              buffer_associated_data := Function.update q.buffer_associated_data f0
                (some b.associated_data),
              first_free_descriptor := j,
              num_free_descriptors := ftail'.length + 1 }
          (j :: ftail') (some f0) ?_ ?_ ?_ hndtail ?_ ?_
        · obtain ⟨q1, hloop, hqs, har, hai, hlu, hnx1, hnum, hfcl, hout, hin⟩ := hrec
          refine ⟨q1, ?_, hqs, har, hai, hlu, ?_, ?_, ?_, ?_, ?_⟩
          · simp only [transferLoop, hfirst, ha0, hnf, List.length_cons,
              Function.update_same, refer_next, hnx, Nat.add_sub_cancel]
            rw [hloop]
            rw [lastOf_cons]
          · intro i
            rw [hnx1 i]
            exact hnextpres i
          · rw [hnum, hnf]
            simp only [List.length_cons]
            omega
          · rw [hfcl]
            rw [List.length_cons, List.drop_succ_cons]
          · intro i hi
            rw [List.length_cons, List.take_succ_cons, List.mem_cons] at hi
            push_neg at hi
            rw [hout i hi.2]
            show Function.update q.buffer_associated_data f0 (some b.associated_data) i =
              q.buffer_associated_data i
            rw [Function.update_noteq hi.1]
          · intro i hi
            rw [List.length_cons, List.take_succ_cons, List.mem_cons] at hi
            rcases hi with hi | hi
            · subst hi
              have hnotin : i ∉ (j :: ftail').take rest.length := by
                intro hmem
                exact hf0tail (List.take_subset _ _ hmem)
              rw [hout i hnotin]
              show Function.update q.buffer_associated_data i (some b.associated_data) i ≠
                none
              rw [Function.update_same]
              simp
            · exact hin i hi
        · show chainFrom (Function.update q.descriptor_table f0
            ((q.descriptor_table f0).refer b.addr b.len b.write)) j (ftail'.length + 1) =
            j :: ftail'
          rw [chainFrom_congr hnextpres]
          have h2 := htailc
          rw [List.length_cons] at h2
          exact h2
        · exact (wfChain_congr hnextpres _).mpr (wfChain_tail hwf)
        · simp
        · intro i hi
          have hif0 : i ≠ f0 := fun h => hf0tail (h ▸ hi)
          show Function.update q.buffer_associated_data f0 (some b.associated_data) i =
            none
          rw [Function.update_noteq hif0]
          exact hassoc i (List.mem_cons_of_mem f0 hi)
        · simpa using Nat.le_of_succ_le_succ (by simpa using hle)

theorem chain'_congr_mem {d1 d2 : Nat → Descriptor} :
    ∀ (c : List Nat), (∀ i ∈ c, (d1 i).next = (d2 i).next) →
      c.Chain' (fun a b => (d1 a).next = some b) →
      c.Chain' (fun a b => (d2 a).next = some b) := by
  intro c
  induction c with
  | nil => intro _ _; simp
  | cons a c ih =>
    intro h hc
    rw [List.chain'_cons'] at hc ⊢
    refine ⟨?_, ih (fun i hi => h i (List.mem_cons_of_mem a hi)) hc.2⟩
    intro b hb
    rw [← h a (List.mem_cons_self a c)]
    exact hc.1 b hb

theorem wfChain_congr_mem {d1 d2 : Nat → Descriptor} {c : List Nat}
    (h : ∀ i ∈ c, (d1 i).next = (d2 i).next) : wfChain d1 c → wfChain d2 c := by
  rintro ⟨hc, hl⟩
  refine ⟨chain'_congr_mem c h hc, ?_⟩
  intro l hlast
  rw [← h l (List.mem_of_mem_getLast? hlast)]
  exact hl l hlast

theorem wfChain_drop {d : Nat → Descriptor} {c : List Nat} (h : wfChain d c) (k : Nat) :
    wfChain d (c.drop k) := by
  obtain ⟨hc, hl⟩ := h
  refine ⟨hc.suffix (List.drop_suffix k c), ?_⟩
  intro l hlast
  apply hl
  rw [← List.take_append_drop k c, List.getLast?_append, hlast]
  rfl

theorem chain'_update_last {d : Nat → Descriptor} (v : Descriptor) :
    ∀ (c : List Nat) (l : Nat), c.Nodup → c.getLast? = some l →
      c.Chain' (fun a b => (d a).next = some b) →
      c.Chain' (fun a b => ((Function.update d l v) a).next = some b) := by
  intro c
  induction c with
  | nil => intro l _ h; simp at h
  | cons a c ih =>
    intro l hnd hlast hc
    cases c with
    | nil => simp
    | cons b c' =>
      rw [List.getLast?_cons_cons] at hlast
      have hl_mem : l ∈ b :: c' := List.mem_of_mem_getLast? hlast
      have hal : a ≠ l := fun h => (List.nodup_cons.mp hnd).1 (h ▸ hl_mem)
      rw [List.chain'_cons] at hc ⊢
      refine ⟨?_, ih l (List.nodup_cons.mp hnd).2 hlast hc.2⟩
      rw [Function.update_noteq hal]
      exact hc.1

/-- A successful non-empty `transfer` preserves the invariant: the first
`buffers.length` elements of the free chain become a new outstanding chain. -/
theorem inv_transfer {T : Type} {n : Nat} {q : VirtQueue T} {out : List (List Nat)}
    {buffers : List (Buffer T)} {q' : VirtQueue T}
    (hinv : Inv n q out) (ht : transfer q buffers = some (.ok q'))
    (hne : buffers ≠ []) :
    Inv n q' (out ++ [(freeChainList q).take buffers.length]) := by
  obtain ⟨hqs, hwf, hlen, hout, hnd, hmem, hassoc⟩ := hinv
  have hk1 : 1 ≤ buffers.length := by
    cases buffers with
    | nil => exact absurd rfl hne
    | cons x xs => simp
  rw [transfer] at ht
  by_cases hlt : q.num_free_descriptors < buffers.length
  · rw [if_pos hlt] at ht; simp at ht
  rw [if_neg hlt] at ht
  have hle : buffers.length ≤ (freeChainList q).length := by omega
  have hndfree : (freeChainList q).Nodup := hnd.of_append_left
  obtain ⟨q1, hloop, hqs1, har1, hai1, hlu1, hnx1, hnum1, hfcl1, hout1, hin1⟩ :=
    transferLoop_spec buffers q (freeChainList q) none rfl hwf hlen hndfree
      (fun i hi => (hassoc i ((hmem i).mp (List.mem_append_left _ hi))).mpr hi) hle
  rw [hloop] at ht
  have htake_len : ((freeChainList q).take buffers.length).length = buffers.length := by
    rw [List.length_take]
    omega
  have htake_ne : (freeChainList q).take buffers.length ≠ [] := by
    intro hnil
    rw [hnil] at htake_len
    simp at htake_len
    omega
  obtain ⟨l, hl⟩ : ∃ l, ((freeChainList q).take buffers.length).getLast? = some l := by
    cases h : ((freeChainList q).take buffers.length).getLast? with
    | none => rw [List.getLast?_eq_none] at h; exact absurd h htake_ne
    | some l => exact ⟨l, rfl⟩
  have hlastof : lastOf (freeChainList q) buffers.length none = some l := by
    unfold lastOf
    rw [hl]
  rw [hlastof] at ht
  have ht' : some (Except.ok ({ q1 with
      descriptor_table := Function.update q1.descriptor_table l
        ((q1.descriptor_table l).setNext none),
      avail_ring := Function.update q1.avail_ring (q1.avail_idx % q1.queue_size)
        q.first_free_descriptor,
      avail_idx := (q1.avail_idx + 1) % 65536 } : VirtQueue T)) =
      some (Except.ok q') := ht
  rw [Option.some_inj, Except.ok.injEq] at ht'
  subst ht'
  -- facts about the last consumed index l
  have hmem_take : l ∈ (freeChainList q).take buffers.length :=
    List.mem_of_mem_getLast? hl
  have hnd_td : ((freeChainList q).take buffers.length ++
      (freeChainList q).drop buffers.length).Nodup := by
    rw [List.take_append_drop]
    exact hndfree
  have hdisj_td := (List.nodup_append.mp hnd_td).2.2
  have hdrop_l : l ∉ (freeChainList q).drop buffers.length := hdisj_td hmem_take
  have hfree_flat_disj := (List.nodup_append.mp hnd).2.2
  have hl_free : l ∈ freeChainList q := List.take_subset _ _ hmem_take
  have hl_not_flat : l ∉ out.flatten := hfree_flat_disj hl_free
  have hDnext : ∀ i, ((Function.update q1.descriptor_table l
      ((q1.descriptor_table l).setNext none)) i).next =
      (if i = l then none else (q.descriptor_table i).next) := by
    intro i
    by_cases h : i = l
    · subst h
      rw [Function.update_same, if_pos rfl]
      rfl
    · rw [Function.update_noteq h, if_neg h]
      exact hnx1 i
  have hfcl' : chainFrom (Function.update q1.descriptor_table l
      ((q1.descriptor_table l).setNext none)) q1.first_free_descriptor
      q1.num_free_descriptors = (freeChainList q).drop buffers.length := by
    rw [chainFrom_update_not_mem]
    · exact hfcl1
    · rw [show chainFrom q1.descriptor_table q1.first_free_descriptor
        q1.num_free_descriptors = (freeChainList q).drop buffers.length from hfcl1]
      exact hdrop_l
  refine ⟨?_, ?_, ?_, ?_, ?_, ?_, ?_⟩
  · show q1.queue_size = n
    rw [hqs1, hqs]
  · show wfChain _ (freeChainList _)
    rw [show freeChainList ({ q1 with
        descriptor_table := Function.update q1.descriptor_table l
          ((q1.descriptor_table l).setNext none),
        avail_ring := Function.update q1.avail_ring (q1.avail_idx % q1.queue_size)
          q.first_free_descriptor,
        avail_idx := (q1.avail_idx + 1) % 65536 } : VirtQueue T) =
      (freeChainList q).drop buffers.length from hfcl']
    refine wfChain_congr_mem ?_ (wfChain_drop hwf buffers.length)
    intro i hi
    have : i ≠ l := fun h => hdrop_l (h ▸ hi)
    rw [hDnext i, if_neg this]
  · show (freeChainList _).length = q1.num_free_descriptors
    rw [show freeChainList ({ q1 with
        descriptor_table := Function.update q1.descriptor_table l
          ((q1.descriptor_table l).setNext none),
        avail_ring := Function.update q1.avail_ring (q1.avail_idx % q1.queue_size)
          q.first_free_descriptor,
        avail_idx := (q1.avail_idx + 1) % 65536 } : VirtQueue T) =
      (freeChainList q).drop buffers.length from hfcl']
    rw [List.length_drop, hlen, hnum1]
  · intro c hc
    rw [List.mem_append] at hc
    rcases hc with hc | hc
    · obtain ⟨hcne, hcwf⟩ := hout c hc
      refine ⟨hcne, wfChain_congr_mem ?_ hcwf⟩
      intro i hi
      have hi_flat : i ∈ out.flatten := List.mem_flatten.mpr ⟨c, hc, hi⟩
      have : i ≠ l := fun h => hl_not_flat (h ▸ hi_flat)
      rw [hDnext i, if_neg this]
    · rw [List.mem_singleton] at hc
      subst hc
      refine ⟨htake_ne, ?_, ?_⟩
      · have hch : ((freeChainList q).take buffers.length).Chain'
            (fun a b => (q1.descriptor_table a).next = some b) :=
          chain'_congr_mem _ (fun i _ => (hnx1 i).symm) (hwf.1.take buffers.length)
        exact chain'_update_last _ _ l
          (hndfree.sublist (List.take_sublist _ _)) hl hch
      · intro l' hlast'
        rw [hl, Option.some_inj] at hlast'
        subst hlast'
        show (Function.update q1.descriptor_table l
          ((q1.descriptor_table l).setNext none) l).next = none
        rw [Function.update_same]
        rfl
  · show ((freeChainList _) ++ (out ++ [_]).flatten).Nodup
    rw [show freeChainList ({ q1 with
        descriptor_table := Function.update q1.descriptor_table l
          ((q1.descriptor_table l).setNext none),
        avail_ring := Function.update q1.avail_ring (q1.avail_idx % q1.queue_size)
          q.first_free_descriptor,
        avail_idx := (q1.avail_idx + 1) % 65536 } : VirtQueue T) =
      (freeChainList q).drop buffers.length from hfcl']
    rw [List.flatten_append]
    have hflat1 : ([(freeChainList q).take buffers.length] :
        List (List Nat)).flatten = (freeChainList q).take buffers.length := by
      simp
    rw [hflat1]
    have hperm : (((freeChainList q).drop buffers.length ++ out.flatten) ++
        (freeChainList q).take buffers.length).Perm
        (freeChainList q ++ out.flatten) := by
      refine (List.perm_append_comm).trans ?_
      rw [← List.append_assoc, List.take_append_drop]
    have hA : (((freeChainList q).drop buffers.length ++ out.flatten) ++
        (freeChainList q).take buffers.length).Nodup := (hperm.symm).nodup hnd
    rw [List.append_assoc] at hA
    exact hA
  · intro i
    rw [show freeChainList ({ q1 with
        descriptor_table := Function.update q1.descriptor_table l
          ((q1.descriptor_table l).setNext none),
        avail_ring := Function.update q1.avail_ring (q1.avail_idx % q1.queue_size)
          q.first_free_descriptor,
        avail_idx := (q1.avail_idx + 1) % 65536 } : VirtQueue T) =
      (freeChainList q).drop buffers.length from hfcl']
    rw [List.flatten_append]
    have hflat1 : ([(freeChainList q).take buffers.length] :
        List (List Nat)).flatten = (freeChainList q).take buffers.length := by
      simp
    rw [hflat1]
    have hperm : (((freeChainList q).drop buffers.length ++ out.flatten) ++
        (freeChainList q).take buffers.length).Perm
        (freeChainList q ++ out.flatten) := by
      refine (List.perm_append_comm).trans ?_
      rw [← List.append_assoc, List.take_append_drop]
    have hpm := hperm.mem_iff (a := i)
    rw [List.append_assoc] at hpm
    rw [hpm]
    exact hmem i
  · intro i hi
    show q1.buffer_associated_data i = none ↔ _
    rw [show freeChainList ({ q1 with
        descriptor_table := Function.update q1.descriptor_table l
          ((q1.descriptor_table l).setNext none),
        avail_ring := Function.update q1.avail_ring (q1.avail_idx % q1.queue_size)
          q.first_free_descriptor,
        avail_idx := (q1.avail_idx + 1) % 65536 } : VirtQueue T) =
      (freeChainList q).drop buffers.length from hfcl']
    by_cases hitk : i ∈ (freeChainList q).take buffers.length
    · constructor
      · intro h; exact absurd h (hin1 i hitk)
      · intro hd; exact absurd hd (hdisj_td hitk)
    · rw [hout1 i hitk, hassoc i hi]
      constructor
      · intro hf
        rw [← List.take_append_drop buffers.length (freeChainList q),
          List.mem_append] at hf
        rcases hf with h | h
        · exact absurd h hitk
        · exact h
      · intro hd
        rw [← List.take_append_drop buffers.length (freeChainList q), List.mem_append]
        exact Or.inr hd

/-- Specification of the `collect` free loop over a chain `c` whose elements
all carry associated data and are disjoint from the free chain: it succeeds,
pushes the elements of `c` onto the free chain front (in reverse order),
vacates their associated-data slots, and touches nothing else. -/
theorem collectChain_spec {T : Type} :
    ∀ (c : List Nat) (q : VirtQueue T),
      (∀ i ∈ c, q.buffer_associated_data i ≠ none) →
      (c ++ freeChainList q).Nodup →
      wfChain q.descriptor_table (freeChainList q) →
      (freeChainList q).length = q.num_free_descriptors →
      ∃ q2 xs, collectChain q c = some (q2, xs) ∧
        q2.queue_size = q.queue_size ∧
        q2.avail_ring = q.avail_ring ∧
        q2.avail_idx = q.avail_idx ∧
        q2.last_used_idx = q.last_used_idx ∧
        q2.num_free_descriptors = q.num_free_descriptors + c.length ∧
        freeChainList q2 = c.reverse ++ freeChainList q ∧
        wfChain q2.descriptor_table (freeChainList q2) ∧
        (∀ i, i ∉ c → (q2.descriptor_table i).next = (q.descriptor_table i).next) ∧
        (∀ i, i ∉ c → q2.buffer_associated_data i = q.buffer_associated_data i) ∧
        (∀ i ∈ c, q2.buffer_associated_data i = none) := by
  intro c
  induction c with
  | nil =>
    intro q _ _ hwf hlen
    exact ⟨q, [], rfl, rfl, rfl, rfl, rfl, by simp, by simp, by simpa using hwf,
      fun _ _ => rfl, fun _ _ => rfl, fun i hi => absurd hi (List.not_mem_nil i)⟩
  | cons i rest ih =>
    intro q hsome hnd hwf hlen
    have hi_ne : i ∉ rest ++ freeChainList q := (List.nodup_cons.mp hnd).1
    rw [List.mem_append] at hi_ne
    push_neg at hi_ne
    obtain ⟨hi_rest, hi_free⟩ := hi_ne
    obtain ⟨x, hx⟩ : ∃ x, q.buffer_associated_data i = some x := by
      cases h : q.buffer_associated_data i with
      | none => exact absurd h (hsome i (List.mem_cons_self i rest))
      | some x => exact ⟨x, rfl⟩
    -- the state after freeing descriptor i
    have hq3free : freeChainList ({ q with
        first_free_descriptor := i,
        num_free_descriptors := q.num_free_descriptors + 1,
        descriptor_table := Function.update q.descriptor_table i
          ((q.descriptor_table i).setNext
            (if q.num_free_descriptors = 0 then none else some q.first_free_descriptor)),
        buffer_associated_data := Function.update q.buffer_associated_data i none } :
        VirtQueue T) = i :: freeChainList q := by
      show chainFrom _ i (q.num_free_descriptors + 1) = i :: freeChainList q
      rw [chainFrom]
      rw [show ((Function.update q.descriptor_table i
        ((q.descriptor_table i).setNext
          (if q.num_free_descriptors = 0 then none else some q.first_free_descriptor))) i).next =
        (if q.num_free_descriptors = 0 then none else some q.first_free_descriptor) from by
          rw [Function.update_same]; rfl]
      by_cases h0 : q.num_free_descriptors = 0
      · rw [if_pos h0]
        have : freeChainList q = [] := by
          have := hlen
          rw [h0] at this
          exact List.length_eq_zero.mp this
        rw [this]
      · rw [if_neg h0]
        show i :: chainFrom (Function.update q.descriptor_table i
          ((q.descriptor_table i).setNext (some q.first_free_descriptor)))
          q.first_free_descriptor q.num_free_descriptors = i :: freeChainList q
        rw [chainFrom_update_not_mem _ _ (show i ∉ chainFrom q.descriptor_table
          q.first_free_descriptor q.num_free_descriptors from hi_free)]
        rfl
    have hwf3 : wfChain (Function.update q.descriptor_table i
        ((q.descriptor_table i).setNext
          (if q.num_free_descriptors = 0 then none else some q.first_free_descriptor)))
        (i :: freeChainList q) := by
      constructor
      · rw [List.chain'_cons']
        constructor
        · intro b hb
          rw [Function.update_same, setNext_next]
          cases hfq : freeChainList q with
          | nil => rw [hfq] at hb; simp at hb
          | cons f0 ft =>
            have h0 : q.num_free_descriptors ≠ 0 := by
              intro h
              rw [h] at hlen
              rw [hfq] at hlen
              simp at hlen
            rw [if_neg h0]
            have hhead : f0 = q.first_free_descriptor := by
              have h2 : chainFrom q.descriptor_table q.first_free_descriptor
                  q.num_free_descriptors = f0 :: ft := hfq
              obtain ⟨m, hm⟩ : ∃ m, q.num_free_descriptors = m + 1 :=
                ⟨q.num_free_descriptors - 1, by omega⟩
              rw [hm, chainFrom, List.cons.injEq] at h2
              exact h2.1.symm
            rw [hfq] at hb
            rw [List.head?_cons, Option.mem_def, Option.some_inj] at hb
            rw [← hb, hhead]
        · refine chain'_congr_mem _ ?_ hwf.1
          intro x hxm
          have : x ≠ i := fun h => hi_free (h ▸ hxm)
          rw [Function.update_noteq this]
      · intro l hlast
        cases hfq : freeChainList q with
        | nil =>
          rw [hfq] at hlast
          simp at hlast
          subst hlast
          rw [Function.update_same, setNext_next]
          have h0 : q.num_free_descriptors = 0 := by
            rw [hfq] at hlen
            simpa using hlen.symm
          rw [if_pos h0]
        | cons f0 ft =>
          rw [hfq] at hlast
          rw [getLast?_cons_of_ne_nil (by simp)] at hlast
          have hlmem : l ∈ f0 :: ft := List.mem_of_mem_getLast? hlast
          have hli : l ≠ i := fun h => hi_free (h ▸ (hfq ▸ hlmem))
          rw [Function.update_noteq hli]
          apply hwf.2
          rw [hfq]
          exact hlast
    -- apply the induction hypothesis to the updated state
    have hrec := ih ({ q with
        first_free_descriptor := i,
        num_free_descriptors := q.num_free_descriptors + 1,
        descriptor_table := Function.update q.descriptor_table i
          ((q.descriptor_table i).setNext
            (if q.num_free_descriptors = 0 then none else some q.first_free_descriptor)),
        buffer_associated_data := Function.update q.buffer_associated_data i none })
      ?_ ?_ ?_ ?_
    · obtain ⟨q2, xs, hcc, hqs, har, hai, hlu, hnum, hfcl, hwf2, hnx2, hout2, hin2⟩ := hrec
      refine ⟨q2, x :: xs, ?_, hqs, har, hai, hlu, ?_, ?_, hwf2, ?_, ?_, ?_⟩
      · show (match q.buffer_associated_data i with
          | none => none
          | some x =>
            match collectChain ({ q with
              first_free_descriptor := i,
              num_free_descriptors := q.num_free_descriptors + 1,
              descriptor_table := Function.update q.descriptor_table i
                ((q.descriptor_table i).setNext
                  (if q.num_free_descriptors = 0 then none
                   else some q.first_free_descriptor)),
              buffer_associated_data := Function.update q.buffer_associated_data i none } :
              VirtQueue T) rest with
            | none => none
            | some (q4, xs) => some (q4, x :: xs)) = some (q2, x :: xs)
        rw [hx, hcc]
      · rw [hnum]
        simp only [List.length_cons]
        omega
      · rw [hfcl, hq3free, List.reverse_cons, List.append_assoc]
        rfl
      · intro x2 hx2
        rw [List.mem_cons] at hx2
        push_neg at hx2
        rw [hnx2 x2 hx2.2]
        show (Function.update q.descriptor_table i _ x2).next = _
        rw [Function.update_noteq hx2.1]
      · intro x2 hx2
        rw [List.mem_cons] at hx2
        push_neg at hx2
        rw [hout2 x2 hx2.2]
        show Function.update q.buffer_associated_data i none x2 = _
        rw [Function.update_noteq hx2.1]
      · intro x2 hx2
        rw [List.mem_cons] at hx2
        rcases hx2 with hx2 | hx2
        · subst hx2
          rw [hout2 x2 hi_rest]
          show Function.update q.buffer_associated_data x2 none x2 = none
          rw [Function.update_same]
        · exact hin2 x2 hx2
    · intro x2 hx2
      show Function.update q.buffer_associated_data i none x2 ≠ none
      have : x2 ≠ i := fun h => hi_rest (h ▸ hx2)
      rw [Function.update_noteq this]
      exact hsome x2 (List.mem_cons_of_mem i hx2)
    · rw [hq3free]
      have hperm : (rest ++ i :: freeChainList q).Perm
          (i :: (rest ++ freeChainList q)) := List.perm_middle
      exact hperm.symm.nodup hnd
    · rw [hq3free]
      exact hwf3
    · rw [hq3free]
      show (i :: freeChainList q).length = q.num_free_descriptors + 1
      rw [List.length_cons, hlen]

/-- Collecting an outstanding chain preserves the invariant: the chain's
descriptors return to the free chain and their associated-data slots are
vacated. -/
theorem inv_collect {T : Type} {n : Nat} {q : VirtQueue T}
    {pre post : List (List Nat)} {c : List Nat} {q' : VirtQueue T} {xs : List T}
    (hinv : Inv n q (pre ++ c :: post))
    (hco : collectOne q c = some (q', xs)) :
    Inv n q' (pre ++ post) := by
  obtain ⟨hqs, hwf, hlen, hout, hnd, hmem, hassoc⟩ := hinv
  have hflat : (pre ++ c :: post).flatten =
      pre.flatten ++ (c ++ post.flatten) := by
    rw [List.flatten_append, List.flatten_cons]
  rw [hflat] at hnd hmem
  have hdisj := (List.nodup_append.mp hnd).2.2
  have hndflat := (List.nodup_append.mp hnd).2.1
  have hndfree := hnd.of_append_left
  have hsub_c : ∀ i ∈ c, i ∈ pre.flatten ++ (c ++ post.flatten) := fun i hi =>
    List.mem_append_right _ (List.mem_append_left _ hi)
  have hc_not_free : ∀ i ∈ c, i ∉ freeChainList q := fun i hi hif =>
    hdisj hif (hsub_c i hi)
  have hndcB : (c ++ post.flatten).Nodup := hndflat.of_append_right
  have hndc : c.Nodup := hndcB.of_append_left
  have hdisj_cB := (List.nodup_append.mp hndcB).2.2
  have hdisj_AcB := (List.nodup_append.mp hndflat).2.2
  have hndcfree : (c ++ freeChainList q).Nodup := by
    rw [List.nodup_append]
    exact ⟨hndc, hndfree, fun a ha => hc_not_free a ha⟩
  -- the state with the bumped `last_used_idx` behaves identically
  obtain ⟨q2, xs2, hcc, hqs2, har2, hai2, hlu2, hnum2, hfcl2, hwf2, hnx2, hout2, hin2⟩ :=
    collectChain_spec c ({ q with last_used_idx := (q.last_used_idx + 1) % 65536 })
      (fun i hi h => (fun h2 => hc_not_free i hi ((hassoc i
        ((hmem i).mp (List.mem_append_right _ (hsub_c i hi)))).mp h2)) h)
      hndcfree hwf hlen
  have hbq_free : freeChainList ({ q with
      last_used_idx := (q.last_used_idx + 1) % 65536 } : VirtQueue T) =
      freeChainList q := rfl
  have hbq_num : ({ q with last_used_idx := (q.last_used_idx + 1) % 65536 } :
      VirtQueue T).num_free_descriptors = q.num_free_descriptors := rfl
  have hbq_desc : ({ q with last_used_idx := (q.last_used_idx + 1) % 65536 } :
      VirtQueue T).descriptor_table = q.descriptor_table := rfl
  have hbq_assoc : ({ q with last_used_idx := (q.last_used_idx + 1) % 65536 } :
      VirtQueue T).buffer_associated_data = q.buffer_associated_data := rfl
  have hbq_qs : ({ q with last_used_idx := (q.last_used_idx + 1) % 65536 } :
      VirtQueue T).queue_size = q.queue_size := rfl
  rw [hbq_free] at hfcl2
  rw [hbq_num] at hnum2
  rw [hbq_qs] at hqs2
  simp only [hbq_desc] at hnx2
  simp only [hbq_assoc] at hout2
  have hco' : collectChain ({ q with last_used_idx := (q.last_used_idx + 1) % 65536 } :
      VirtQueue T) c = some (q', xs) := hco
  rw [hcc, Option.some_inj, Prod.mk.injEq] at hco'
  obtain ⟨hq', _⟩ := hco'
  subst hq'
  -- the permutation relating the new and old coverage lists
  have p1 : ((c.reverse ++ freeChainList q) ++ (pre.flatten ++ post.flatten)).Perm
      ((freeChainList q ++ c) ++ (pre.flatten ++ post.flatten)) :=
    (((List.reverse_perm c).append_right _).trans List.perm_append_comm).append_right _
  have p2 : ((freeChainList q ++ c) ++ (pre.flatten ++ post.flatten)).Perm
      (freeChainList q ++ (pre.flatten ++ (c ++ post.flatten))) := by
    rw [List.append_assoc]
    refine List.Perm.append_left _ ?_
    rw [← List.append_assoc]
    refine (List.perm_append_comm.append_right _).trans ?_
    rw [List.append_assoc]
  have hperm := p1.trans p2
  refine ⟨?_, hwf2, ?_, ?_, ?_, ?_, ?_⟩
  · rw [hqs2]
    exact hqs
  · rw [hfcl2]
    rw [List.length_append, List.length_reverse, hnum2, hlen]
    omega
  · intro c' hc'
    have hc'mem : c' ∈ pre ++ c :: post := by
      rw [List.mem_append] at hc' ⊢
      rcases hc' with h | h
      · exact Or.inl h
      · exact Or.inr (List.mem_cons_of_mem c h)
    obtain ⟨hne', hwf'⟩ := hout c' hc'mem
    refine ⟨hne', wfChain_congr_mem ?_ hwf'⟩
    intro i hi
    have hinotc : i ∉ c := by
      rw [List.mem_append] at hc'
      rcases hc' with h | h
      · intro hic
        exact hdisj_AcB (List.mem_flatten.mpr ⟨c', h, hi⟩)
          (List.mem_append_left _ hic)
      · intro hic
        exact hdisj_cB hic (List.mem_flatten.mpr ⟨c', h, hi⟩)
    rw [hnx2 i hinotc]
  · rw [hfcl2, List.flatten_append]
    exact (hperm.symm).nodup hnd
  · intro i
    rw [hfcl2, List.flatten_append]
    rw [hperm.mem_iff]
    exact hmem i
  · intro i hi
    rw [hfcl2]
    by_cases hic : i ∈ c
    · refine iff_of_true (hin2 i hic) ?_
      exact List.mem_append_left _ (List.mem_reverse.mpr hic)
    · rw [hout2 i hic]
      have hbase : q.buffer_associated_data i = none ↔ i ∈ freeChainList q :=
        hassoc i hi
      rw [hbase, List.mem_append]
      constructor
      · intro h
        exact Or.inr h
      · rintro (h | h)
        · exact absurd (List.mem_reverse.mp h) hic
        · exact h

/-- Every state reachable by successful `transfer`/`collect` sequences
satisfies the conservation invariant. -/
theorem inv_reach {T : Type} {n : Nat} {q : VirtQueue T} {out : List (List Nat)}
    (h : Reach T n q out) : Inv n q out := by
  induction h with
  | init => exact inv_init T n
  | transfer_step _ ht hne ih => exact inv_transfer ih ht hne
  | collect_step _ _ _ hc ih => exact inv_collect ih hc

/-- C7: descriptor conservation.  In every state reachable from a fresh
`VirtQueue` of size `n` by successful `transfer`/`collect` operations, the
descriptor indices reachable from the free-chain head all lie below `n`, are
pairwise distinct, number exactly `num_free_descriptors`, and an index below
`n` is on the free chain exactly when its associated-data slot is `None` —
so the free set and the `Some`-slot set are disjoint with union
`{0, …, n-1}`. -/
theorem virtqueue_descriptor_conservation {T : Type} {n : Nat} {q : VirtQueue T}
    {out : List (List Nat)} (h : Reach T n q out) :
    (∀ i ∈ freeChainList q, i < n) ∧
    (freeChainList q).Nodup ∧
    (freeChainList q).length = q.num_free_descriptors ∧
    (∀ i, i < n → (i ∈ freeChainList q ↔ q.buffer_associated_data i = none)) := by
  obtain ⟨_, _, hlen, _, hnd, hmem, hassoc⟩ := inv_reach h
  refine ⟨?_, hnd.of_append_left, hlen, ?_⟩
  · intro i hi
    exact (hmem i).mp (List.mem_append_left _ hi)
  · intro i hi
    exact (hassoc i hi).symm

theorem virtqueue_descriptor_conservation_witness :
    (∀ i ∈ freeChainList (freshQueue Unit 2), i < 2) ∧
    (freeChainList (freshQueue Unit 2)).Nodup ∧
    (freeChainList (freshQueue Unit 2)).length =
      (freshQueue Unit 2).num_free_descriptors ∧
    (∀ i, i < 2 → (i ∈ freeChainList (freshQueue Unit 2) ↔
      (freshQueue Unit 2).buffer_associated_data i = none)) :=
  virtqueue_descriptor_conservation (Reach.init)

end Virtio

namespace Block

/-! Virtio block driver, `devices/virtio/block.rs`.  The request queue is a
`VirtQueue<Option<task::WaitChannel>>`; wait channels are pointer-derived
identities, modelled as `Nat`. -/

/-- `block::Error` (block.rs). -/
inductive Error where
  | Io
  | Unsupported
  | OutOfRange
  | Unknown
deriving DecidableEq, Repr

/-- `Block::SECTOR_SIZE`. -/
def SECTOR_SIZE : Nat := 512

/-- `Block::check_capacity(sector, len)` (block.rs lines 91–98):
`num_additional_sectors = (len.max(1) - 1) / 512` over `usize`, then the
`u64` comparison `sector + num_additional_sectors < capacity` (wrap of the
`u64` addition written explicitly). -/
def check_capacity (capacity sector len : Nat) : Except Error Unit :=
  let num_additional_sectors := (max len 1 - 1) / SECTOR_SIZE
  if (sector + num_additional_sectors) % 2 ^ 64 < capacity then Except.ok ()
  else Except.error Error.OutOfRange

/-- The three buffers `Block::request` submits: the device-read-only 16-byte
`RequestHeader` (`Buffer::from_ref`, no associated data), the caller's body
buffer (device-writable exactly for `read`), and the device-writable one-byte
`RequestFooter` carrying the completion channel as associated data. -/
def requestBuffers (headerAddr bodyAddr bodyLen footerAddr chan : Nat)
    (bodyWrite : Bool) : List (Virtio.Buffer (Option Nat)) :=
  [{ addr := headerAddr, len := 16, write := false, associated_data := none },
   { addr := bodyAddr, len := bodyLen, write := bodyWrite, associated_data := none },
   { addr := footerAddr, len := 1, write := true, associated_data := some chan }]

/-- Outcome of one pass of `Block::read`/`Block::write` up to the first
`transfer` attempt inside `Block::request`'s loop. -/
inductive SubmitStatus where
  | err : Error → SubmitStatus
  | submitted
  | blockedOnDescriptors
  | panicked
deriving DecidableEq, Repr

/-- One pass of `Block::read`/`Block::write`: `check_capacity`, header/body/
footer construction, one `requestq.transfer` call, and `set_queue_notify` on
its success.  Returns the status, the request-queue state, and whether
`set_queue_notify(0)` was written in this pass (`Err(b)` from `transfer`
makes the caller block on the queue's wait channel before retrying; the
queue is unchanged in that case). -/
def rwAttempt (capacity : Nat) (q : Virtio.VirtQueue (Option Nat))
    (sector len headerAddr bodyAddr footerAddr chan : Nat) (bodyWrite : Bool) :
    SubmitStatus × Virtio.VirtQueue (Option Nat) × Bool :=
  match check_capacity capacity sector len with
  | Except.error e => (SubmitStatus.err e, q, false)
  | Except.ok _ =>
    match Virtio.transfer q
        (requestBuffers headerAddr bodyAddr len footerAddr chan bodyWrite) with
    | none => (SubmitStatus.panicked, q, false)
    | some (Except.error _) => (SubmitStatus.blockedOnDescriptors, q, false)
    | some (Except.ok q1) => (SubmitStatus.submitted, q1, true)

/-- `Block::read`: body via `Buffer::from_bytes_mut` (device write-only). -/
def read (capacity : Nat) (q : Virtio.VirtQueue (Option Nat))
    (sector len headerAddr bodyAddr footerAddr chan : Nat) :
    SubmitStatus × Virtio.VirtQueue (Option Nat) × Bool :=
  rwAttempt capacity q sector len headerAddr bodyAddr footerAddr chan true

/-- `Block::write`: body via `Buffer::from_bytes` (device read-only). -/
def write (capacity : Nat) (q : Virtio.VirtQueue (Option Nat))
    (sector len headerAddr bodyAddr footerAddr chan : Nat) :
    SubmitStatus × Virtio.VirtQueue (Option Nat) × Bool :=
  rwAttempt capacity q sector len headerAddr bodyAddr footerAddr chan false

/-- The validation condition as the spec words it:
`sector + ceil(len/512) < capacity`. -/
def specCapacityGate (capacity sector len : Nat) : Bool :=
  decide (sector + (len + SECTOR_SIZE - 1) / SECTOR_SIZE < capacity)

theorem read_submits_below_spec_gate :
    specCapacityGate 1 0 512 = false ∧
    (read 1 (Virtio.freshQueue (Option Nat) 3) 0 512 100 200 300 7).1 =
      SubmitStatus.submitted ∧
    (read 1 (Virtio.freshQueue (Option Nat) 3) 0 512 100 200 300 7).2.2 = true := by
  refine ⟨by decide, by decide, by decide⟩

/-- C2 (amended): `read`/`write` return `Err(OutOfRange)` exactly when the
code's condition `sector + (len.max(1) - 1)/512 < capacity` fails (the
additional-sector count is `(len.max(1) - 1)/512`, not `ceil(len/512)`; the
two differ on every exact multiple of 512); when it fails, the call returns
before touching the request queue or the notify register. -/
theorem block_capacity_gate (capacity sector len headerAddr bodyAddr footerAddr
    chan : Nat) (q : Virtio.VirtQueue (Option Nat)) :
    ((read capacity q sector len headerAddr bodyAddr footerAddr chan).1 =
        SubmitStatus.err Error.OutOfRange ↔
      ¬ (sector + (max len 1 - 1) / SECTOR_SIZE) % 2 ^ 64 < capacity) ∧
    ((write capacity q sector len headerAddr bodyAddr footerAddr chan).1 =
        SubmitStatus.err Error.OutOfRange ↔
      ¬ (sector + (max len 1 - 1) / SECTOR_SIZE) % 2 ^ 64 < capacity) ∧
    (¬ (sector + (max len 1 - 1) / SECTOR_SIZE) % 2 ^ 64 < capacity →
      read capacity q sector len headerAddr bodyAddr footerAddr chan =
        (SubmitStatus.err Error.OutOfRange, q, false) ∧
      write capacity q sector len headerAddr bodyAddr footerAddr chan =
        (SubmitStatus.err Error.OutOfRange, q, false)) := by
  by_cases hcond : (sector + (max len 1 - 1) / SECTOR_SIZE) % 2 ^ 64 < capacity
  · have hck : check_capacity capacity sector len = Except.ok () := by
      simp only [check_capacity]
      rw [if_pos hcond]
    refine ⟨?_, ?_, fun h => absurd hcond h⟩
    · simp only [read, rwAttempt, hck]
      cases htr : Virtio.transfer q
          (requestBuffers headerAddr bodyAddr len footerAddr chan true) with
      | none => exact iff_of_false (by simp) (fun h => h hcond)
      | some r =>
        cases r with
        | error e => exact iff_of_false (by simp) (fun h => h hcond)
        | ok q1 => exact iff_of_false (by simp) (fun h => h hcond)
    · simp only [write, rwAttempt, hck]
      cases htr : Virtio.transfer q
          (requestBuffers headerAddr bodyAddr len footerAddr chan false) with
      | none => exact iff_of_false (by simp) (fun h => h hcond)
      | some r =>
        cases r with
        | error e => exact iff_of_false (by simp) (fun h => h hcond)
        | ok q1 => exact iff_of_false (by simp) (fun h => h hcond)
  · have hck : check_capacity capacity sector len = Except.error Error.OutOfRange := by
      simp only [check_capacity]
      rw [if_neg hcond]
    refine ⟨?_, ?_, fun _ => ?_⟩
    · simp only [read, rwAttempt, hck]
      exact iff_of_true trivial hcond
    · simp only [write, rwAttempt, hck]
      exact iff_of_true trivial hcond
    · exact ⟨by simp [read, rwAttempt, hck], by simp [write, rwAttempt, hck]⟩

theorem block_capacity_gate_witness :
    read 1 (Virtio.freshQueue (Option Nat) 3) 1 512 100 200 300 7 =
      (SubmitStatus.err Error.OutOfRange, Virtio.freshQueue (Option Nat) 3, false) :=
  ((block_capacity_gate 1 1 512 100 200 300 7
    (Virtio.freshQueue (Option Nat) 3)).2.2 (by decide)).1

/-- C3: with a one-sector (512-byte) buffer, `read` and `write` at
`sector = capacity - 1` pass the capacity check and proceed to the request
queue (the result is never `Err(OutOfRange)`), while at any
`sector ≥ capacity` they return `Err(OutOfRange)` with the request queue
unchanged and no notify written. -/
theorem block_one_sector_boundary (capacity sector : Nat)
    (q : Virtio.VirtQueue (Option Nat))
    (headerAddr bodyAddr footerAddr chan : Nat)
    (h1 : 1 ≤ capacity) (h2 : capacity < 2 ^ 64)
    (h3 : capacity ≤ sector) (h4 : sector < 2 ^ 64) :
    ((read capacity q (capacity - 1) 512 headerAddr bodyAddr footerAddr chan).1 ≠
        SubmitStatus.err Error.OutOfRange) ∧
    ((write capacity q (capacity - 1) 512 headerAddr bodyAddr footerAddr chan).1 ≠
        SubmitStatus.err Error.OutOfRange) ∧
    read capacity q sector 512 headerAddr bodyAddr footerAddr chan =
      (SubmitStatus.err Error.OutOfRange, q, false) ∧
    write capacity q sector 512 headerAddr bodyAddr footerAddr chan =
      (SubmitStatus.err Error.OutOfRange, q, false) := by
  have hcok : check_capacity capacity (capacity - 1) 512 = Except.ok () := by
    simp only [check_capacity, SECTOR_SIZE]
    rw [if_pos (by norm_num; omega)]
  have hcerr : check_capacity capacity sector 512 = Except.error Error.OutOfRange := by
    simp only [check_capacity, SECTOR_SIZE]
    rw [if_neg (by norm_num; omega)]
  refine ⟨?_, ?_, by simp [read, rwAttempt, hcerr], by simp [write, rwAttempt, hcerr]⟩
  · simp only [read, rwAttempt, hcok]
    cases htr : Virtio.transfer q
        (requestBuffers headerAddr bodyAddr 512 footerAddr chan true) with
    | none => simp
    | some r =>
      cases r with
      | error e => simp
      | ok q1 => simp
  · simp only [write, rwAttempt, hcok]
    cases htr : Virtio.transfer q
        (requestBuffers headerAddr bodyAddr 512 footerAddr chan false) with
    | none => simp
    | some r =>
      cases r with
      | error e => simp
      | ok q1 => simp

theorem block_one_sector_boundary_witness :
    ((read 5 (Virtio.freshQueue (Option Nat) 3) 4 512 100 200 300 7).1 ≠
        SubmitStatus.err Error.OutOfRange) ∧
    ((write 5 (Virtio.freshQueue (Option Nat) 3) 4 512 100 200 300 7).1 ≠
        SubmitStatus.err Error.OutOfRange) ∧
    read 5 (Virtio.freshQueue (Option Nat) 3) 5 512 100 200 300 7 =
      (SubmitStatus.err Error.OutOfRange, Virtio.freshQueue (Option Nat) 3, false) ∧
    write 5 (Virtio.freshQueue (Option Nat) 3) 5 512 100 200 300 7 =
      (SubmitStatus.err Error.OutOfRange, Virtio.freshQueue (Option Nat) 3, false) :=
  block_one_sector_boundary 5 5 (Virtio.freshQueue (Option Nat) 3) 100 200 300 7
    (by decide) (by decide) (by decide) (by decide)

end Block

end Ors
